import Mathlib

/-!
Verification of the real-time chat server core: the in-memory entity store
(`MemStorage` in the server storage module), the Express route handlers
(`registerRoutes` in `server/routes.ts`), the WebSocket room-broadcast
registry, and the client reconnect logic (`use-websocket.ts`).

Modelling conventions:
* JavaScript `Map` objects are modelled by `SMap`: an insertion-ordered list
  of key/value pairs.  `set` replaces in place (keeping the original
  position, as JS `Map.set` does) or appends; `values` iterates in insertion
  order.
* JS `Set<WebSocket>` objects are modelled by duplicate-free `List Nat`
  (connections are identified by numeric ids); `add` appends when absent,
  `delete` filters.
* `Date` values are milliseconds since the epoch as `Nat`; every operation
  that reads the clock takes `now : Nat` explicitly.
* `randomUUID()` is modelled by passing the generated id as an explicit
  argument; freshness of ids is a hypothesis where a theorem needs it.
* JS `Array.prototype.sort` with a consistent comparator is a stable sort;
  it is modelled by `stableSort` below (stable insertion sort), which agrees
  with any stable sort for a total preorder.
* Fields that are nullable in the schema and can be absent at runtime are
  `Option`; JS truthiness of a nullable boolean is `obTrue`.
-/

/-- Stable insertion of `a` after every leading `b` with `le b a`. -/
def stableInsert {α : Type} (le : α → α → Bool) (a : α) : List α → List α
  | [] => [a]
  | b :: l => if le b a then b :: stableInsert le a l else a :: b :: l

/-- Stable sort (model of JS `Array.prototype.sort` with comparator `c`,
where `le a b ↔ c a b ≤ 0`): fold the input from the left, inserting each
element after all already-placed elements that compare `le` to it. -/
def stableSort {α : Type} (le : α → α → Bool) (l : List α) : List α :=
  l.foldl (fun acc a => stableInsert le a acc) []

theorem stableInsert_perm {α : Type} (le : α → α → Bool) (a : α) (l : List α) :
    (stableInsert le a l).Perm (a :: l) := by
  induction l with
  | nil => simp [stableInsert]
  | cons b t ih =>
    simp only [stableInsert]
    by_cases h : le b a = true
    · simp only [h, if_true]
      exact (ih.cons b).trans (List.Perm.swap a b t)
    · simp [h]

theorem stableSort_core_perm {α : Type} (le : α → α → Bool) (l acc : List α) :
    (l.foldl (fun acc a => stableInsert le a acc) acc).Perm (acc ++ l) := by
  induction l generalizing acc with
  | nil => simp
  | cons a t ih =>
    simp only [List.foldl_cons]
    refine (ih (stableInsert le a acc)).trans ?_
    have h1 : (stableInsert le a acc ++ t).Perm ((a :: acc) ++ t) :=
      (stableInsert_perm le a acc).append_right t
    refine h1.trans ?_
    exact List.perm_middle.symm

theorem stableSort_perm {α : Type} (le : α → α → Bool) (l : List α) :
    (stableSort le l).Perm l := by
  simpa [stableSort] using stableSort_core_perm le l []

theorem mem_stableSort {α : Type} (le : α → α → Bool) {a : α} {l : List α} :
    a ∈ stableSort le l ↔ a ∈ l :=
  (stableSort_perm le l).mem_iff

theorem pairwise_stableInsert {α : Type} {le : α → α → Bool}
    (htot : ∀ a b, le a b = true ∨ le b a = true)
    (htrans : ∀ a b c, le a b = true → le b c = true → le a c = true)
    (a : α) {l : List α} (hl : l.Pairwise (fun x y => le x y = true)) :
    (stableInsert le a l).Pairwise (fun x y => le x y = true) := by
  induction l with
  | nil => simp [stableInsert]
  | cons b t ih =>
    rcases List.pairwise_cons.mp hl with ⟨hb, ht⟩
    simp only [stableInsert]
    by_cases h : le b a = true
    · simp only [h, if_true]
      refine List.pairwise_cons.mpr ⟨?_, ih ht⟩
      intro x hx
      rcases List.mem_cons.mp ((stableInsert_perm le a t).mem_iff.mp hx) with hxa | hxt
      · exact hxa ▸ h
      · exact hb x hxt
    · simp only [h, if_false]
      have ha : le a b = true := (htot a b).resolve_right (by simpa using h)
      refine List.pairwise_cons.mpr ⟨?_, hl⟩
      intro x hx
      rcases List.mem_cons.mp hx with hxb | hxt
      · exact hxb ▸ ha
      · exact htrans a b x ha (hb x hxt)

theorem pairwise_stableSort {α : Type} {le : α → α → Bool}
    (htot : ∀ a b, le a b = true ∨ le b a = true)
    (htrans : ∀ a b c, le a b = true → le b c = true → le a c = true)
    (l : List α) :
    (stableSort le l).Pairwise (fun x y => le x y = true) := by
  have core : ∀ (l acc : List α), acc.Pairwise (fun x y => le x y = true) →
      (l.foldl (fun acc a => stableInsert le a acc) acc).Pairwise
        (fun x y => le x y = true) := by
    intro l
    induction l with
    | nil => intro acc h; simpa using h
    | cons a t ih =>
      intro acc h
      exact ih (stableInsert le a acc) (pairwise_stableInsert htot htrans a h)
  simpa [stableSort] using core l [] (by simp)

/-- Insertion-ordered string-keyed map: the model of a JS `Map`. -/
structure SMap (α : Type) where
  entries : List (String × α)
deriving DecidableEq

def SMap.empty {α : Type} : SMap α := ⟨[]⟩

def SMap.hasKey {α : Type} (m : SMap α) (k : String) : Bool :=
  m.entries.any (fun p => p.1 == k)

/-- `Map.get`: the value of the first (unique, in well-formed maps) entry
with key `k`. -/
def SMap.get {α : Type} (m : SMap α) (k : String) : Option α :=
  (m.entries.find? (fun p => p.1 == k)).map (fun p => p.2)

/-- `Map.set`: replace in place when the key is present (JS keeps the
original insertion position), otherwise append. -/
def SMap.set {α : Type} (m : SMap α) (k : String) (v : α) : SMap α :=
  if m.entries.any (fun p => p.1 == k) then
    ⟨m.entries.map (fun p => if p.1 == k then (k, v) else p)⟩
  else
    ⟨m.entries ++ [(k, v)]⟩

/-- `Map.delete`. -/
def SMap.del {α : Type} (m : SMap α) (k : String) : SMap α :=
  ⟨m.entries.filter (fun p => p.1 != k)⟩

/-- Mutation of the value object obtained through `Map.get` (used for the
`Set` objects stored in the broadcast registry). -/
def SMap.modify {α : Type} (m : SMap α) (k : String) (f : α → α) : SMap α :=
  ⟨m.entries.map (fun p => if p.1 == k then (p.1, f p.2) else p)⟩

/-- `Array.from(map.values())`: values in insertion order. -/
def SMap.values {α : Type} (m : SMap α) : List α :=
  m.entries.map (fun p => p.2)

theorem SMap.hasKey_eq_false_iff {α : Type} (m : SMap α) (k : String) :
    m.hasKey k = false ↔ ∀ p ∈ m.entries, p.1 ≠ k := by
  simp [SMap.hasKey, List.any_eq_false]

theorem SMap.get_eq_none_iff {α : Type} (m : SMap α) (k : String) :
    m.get k = none ↔ ∀ p ∈ m.entries, p.1 ≠ k := by
  simp [SMap.get, List.find?_eq_none]

theorem SMap.set_of_fresh {α : Type} {m : SMap α} {k : String} (v : α)
    (h : m.get k = none) :
    m.set k v = ⟨m.entries ++ [(k, v)]⟩ := by
  have h' : ∀ p ∈ m.entries, p.1 ≠ k := (SMap.get_eq_none_iff m k).mp h
  have : m.entries.any (fun p => p.1 == k) = false := by
    simp only [List.any_eq_false]
    intro p hp
    simpa using h' p hp
  simp [SMap.set, this]

theorem SMap.values_append_entry {α : Type} (l : List (String × α))
    (k : String) (v : α) :
    (SMap.values ⟨l ++ [(k, v)]⟩) = SMap.values ⟨l⟩ ++ [v] := by
  simp [SMap.values]

/-- JS truthiness of a nullable boolean field. -/
def obTrue : Option Bool → Bool
  | some true => true
  | _ => false

/-! ## Data model (shared/schema.ts, fields as the in-memory store writes them) -/

/-- `users` row as created by `MemStorage.createUser`. -/
structure User where
  id : String
  username : String
  displayName : String
  password : String
  avatar : Option String
  isOnline : Option Bool
  lastSeen : Nat
deriving DecidableEq

/-- `insertUserSchema` payload (schema minus `id`, `lastSeen`). -/
structure InsertUser where
  username : String
  displayName : String
  password : String
  avatar : Option String
  isOnline : Option Bool
deriving DecidableEq

/-- `chat_rooms` row. -/
structure ChatRoom where
  id : String
  name : String
  description : Option String
  avatar : Option String
  type : String
  createdAt : Nat
deriving DecidableEq

/-- `insertChatRoomSchema` payload. -/
structure InsertChatRoom where
  name : String
  description : Option String
  avatar : Option String
  type : String
deriving DecidableEq

/-- `messages` row as created by `MemStorage.createMessage`. -/
structure Message where
  id : String
  content : String
  senderId : String
  roomId : String
  timestamp : Nat
  status : String
deriving DecidableEq

/-- `insertMessageSchema` payload. -/
structure InsertMessage where
  content : String
  senderId : String
  roomId : String
deriving DecidableEq

/-- `room_members` row. -/
structure RoomMember where
  id : String
  userId : String
  roomId : String
  joinedAt : Nat
deriving DecidableEq

/-- `insertRoomMemberSchema` payload. -/
structure InsertRoomMember where
  userId : String
  roomId : String
deriving DecidableEq

/-- `typing_status` row. -/
structure TypingStatus where
  id : String
  userId : String
  roomId : String
  isTyping : Option Bool
  lastUpdate : Nat
deriving DecidableEq

/-- `insertTypingStatusSchema` payload. -/
structure InsertTypingStatus where
  userId : String
  roomId : String
  isTyping : Option Bool
deriving DecidableEq

/-- `MessageWithSender = Message & { sender: User }`. -/
structure MessageWithSender extends Message where
  sender : User
deriving DecidableEq

/-- `ChatRoomWithDetails = ChatRoom & { members, lastMessage, unreadCount, onlineCount }`. -/
structure ChatRoomWithDetails extends ChatRoom where
  members : List User
  lastMessage : Option MessageWithSender
  unreadCount : Nat
  onlineCount : Nat
deriving DecidableEq

/-! ## MemStorage (server storage module)

Private maps `users`, `chatRooms`, `messages`, `roomMembers`,
`typingStatuses`, all keyed by id except `typingStatuses`, which is keyed
by the string `` `${userId}-${roomId}` ``. -/

structure MemStorage where
  users : SMap User
  chatRooms : SMap ChatRoom
  messages : SMap Message
  roomMembers : SMap RoomMember
  typingStatuses : SMap TypingStatus
deriving DecidableEq

def MemStorage.init : MemStorage :=
  ⟨SMap.empty, SMap.empty, SMap.empty, SMap.empty, SMap.empty⟩

/-- `getUser(id)`. -/
def MemStorage.getUser (s : MemStorage) (id : String) : Option User :=
  s.users.get id

/-- `getUserByUsername(username)`: first user (in insertion order) whose
username matches. -/
def MemStorage.getUserByUsername (s : MemStorage) (username : String) : Option User :=
  s.users.values.find? (fun user => user.username == username)

/-- `createUser(insertUser)`: spreads the payload, assigns the fresh id
(`randomUUID()`, passed explicitly) and `lastSeen = new Date()`. -/
def MemStorage.createUser (s : MemStorage) (insertUser : InsertUser)
    (id : String) (now : Nat) : MemStorage × User :=
  let user : User :=
    { id := id
      username := insertUser.username
      displayName := insertUser.displayName
      password := insertUser.password
      avatar := insertUser.avatar
      isOnline := insertUser.isOnline
      lastSeen := now }
  ({ s with users := s.users.set user.id user }, user)

/-- `updateUserOnlineStatus(id, isOnline)`: no-op when the id is unknown. -/
def MemStorage.updateUserOnlineStatus (s : MemStorage) (id : String)
    (isOnline : Bool) (now : Nat) : MemStorage :=
  match s.users.get id with
  | some user =>
      { s with users := s.users.set id { user with isOnline := some isOnline, lastSeen := now } }
  | none => s

/-- `getChatRoom(id)`. -/
def MemStorage.getChatRoom (s : MemStorage) (id : String) : Option ChatRoom :=
  s.chatRooms.get id

/-- `createChatRoom(insertRoom)`. -/
def MemStorage.createChatRoom (s : MemStorage) (insertRoom : InsertChatRoom)
    (id : String) (now : Nat) : MemStorage × ChatRoom :=
  let room : ChatRoom :=
    { id := id
      name := insertRoom.name
      description := insertRoom.description
      avatar := insertRoom.avatar
      type := insertRoom.type
      createdAt := now }
  ({ s with chatRooms := s.chatRooms.set room.id room }, room)

/-- `getRoomMembers(roomId)`: member ids of the room in insertion order,
each resolved through `getUser`; unresolvable ids are skipped. -/
def MemStorage.getRoomMembers (s : MemStorage) (roomId : String) : List User :=
  let memberIds :=
    (s.roomMembers.values.filter (fun member => member.roomId == roomId)).map
      (fun member => member.userId)
  memberIds.filterMap (fun userId => s.getUser userId)

/-- `isUserInRoom(userId, roomId)`. -/
def MemStorage.isUserInRoom (s : MemStorage) (userId roomId : String) : Bool :=
  s.roomMembers.values.any (fun member => member.userId == userId && member.roomId == roomId)

/-- `addUserToRoom(roomMember)`: appends a fresh membership row; uniqueness
of `(userId, roomId)` is not checked. -/
def MemStorage.addUserToRoom (s : MemStorage) (insertRoomMember : InsertRoomMember)
    (id : String) (now : Nat) : MemStorage × RoomMember :=
  let roomMember : RoomMember :=
    { id := id
      userId := insertRoomMember.userId
      roomId := insertRoomMember.roomId
      joinedAt := now }
  ({ s with roomMembers := s.roomMembers.set roomMember.id roomMember }, roomMember)

/-- Comparator of the ascending message sort in `getMessages`
(`new Date(a.timestamp) - new Date(b.timestamp)`). -/
def msgAscLe (a b : Message) : Bool := a.timestamp ≤ b.timestamp

/-- `getMessages(roomId, limit = 50, offset = 0)`: the room's messages
sorted ascending by timestamp, sliced to `[offset, offset + limit)`, each
enriched with its sender; a message whose `senderId` does not resolve is
skipped (the source pushes only when `getUser` finds the sender). -/
def MemStorage.getMessages (s : MemStorage) (roomId : String)
    (limit : Nat := 50) (offset : Nat := 0) : List MessageWithSender :=
  let roomMessages :=
    ((stableSort msgAscLe
        (s.messages.values.filter (fun msg => msg.roomId == roomId))).drop offset).take limit
  roomMessages.filterMap (fun message =>
    (s.getUser message.senderId).map (fun sender => { toMessage := message, sender := sender }))

/-- `createMessage(insertMessage)`: inserts the row (status `"sent"`,
timestamp now) and then resolves the sender; when the sender is missing the
source throws `Error("Sender not found")` AFTER the map was already
mutated, modelled by returning `none` with the mutated store. -/
def MemStorage.createMessage (s : MemStorage) (insertMessage : InsertMessage)
    (id : String) (now : Nat) : MemStorage × Option MessageWithSender :=
  let message : Message :=
    { id := id
      content := insertMessage.content
      senderId := insertMessage.senderId
      roomId := insertMessage.roomId
      timestamp := now
      status := "sent" }
  let s' : MemStorage := { s with messages := s.messages.set message.id message }
  match s'.getUser message.senderId with
  | some sender => (s', some { toMessage := message, sender := sender })
  | none => (s', none)

/-- `updateMessageStatus(messageId, status)`: no-op when unknown. -/
def MemStorage.updateMessageStatus (s : MemStorage) (messageId status : String) :
    MemStorage :=
  match s.messages.get messageId with
  | some message => { s with messages := s.messages.set messageId { message with status := status } }
  | none => s

/-- The `` `${userId}-${roomId}` `` key of the `typingStatuses` map. -/
def typingKey (userId roomId : String) : String :=
  userId ++ "-" ++ roomId

/-- `updateTypingStatus(typing)`: upserts the row under `typingKey`,
keeping an existing row's id (`existing?.id || randomUUID()`) and stamping
`lastUpdate = new Date()`.  The source also schedules
`clearTypingStatus(userId, roomId)` 3000 ms later (`setTimeout`); the timer
firing is modelled by applying `clearTypingStatus` at that later time. -/
def MemStorage.updateTypingStatus (s : MemStorage) (insertTyping : InsertTypingStatus)
    (newId : String) (now : Nat) : MemStorage :=
  let key := typingKey insertTyping.userId insertTyping.roomId
  let existing := s.typingStatuses.get key
  let typingStatus : TypingStatus :=
    { id := match existing with
            | some e => e.id
            | none => newId
      userId := insertTyping.userId
      roomId := insertTyping.roomId
      isTyping := insertTyping.isTyping
      lastUpdate := now }
  { s with typingStatuses := s.typingStatuses.set key typingStatus }

/-- `getTypingUsers(roomId)`: rows of the room that are truthy `isTyping`
and fresher than the 5000 ms staleness window, resolved through `getUser`
(unresolvable ids skipped).  `Date.now() - lastUpdate` is never negative
here because `Nat` subtraction truncates, exactly as the JS comparison is
satisfied for a future `lastUpdate`. -/
def MemStorage.getTypingUsers (s : MemStorage) (roomId : String) (now : Nat) :
    List User :=
  let typingUserIds :=
    (s.typingStatuses.values.filter (fun status =>
        status.roomId == roomId && obTrue status.isTyping &&
          decide (now - status.lastUpdate < 5000))).map
      (fun status => status.userId)
  typingUserIds.filterMap (fun userId => s.getUser userId)

/-- `clearTypingStatus(userId, roomId)`. -/
def MemStorage.clearTypingStatus (s : MemStorage) (userId roomId : String) :
    MemStorage :=
  { s with typingStatuses := s.typingStatuses.del (typingKey userId roomId) }

/-- Sort key of `getChatRoomsForUser`'s final sort:
`a.lastMessage?.timestamp ? new Date(a.lastMessage.timestamp).getTime() : 0`
(a `Date` object is always truthy, so the key is the last message's
timestamp when `lastMessage` is present and `0` otherwise). -/
def roomSortKey (d : ChatRoomWithDetails) : Nat :=
  match d.lastMessage with
  | some lastMessage => lastMessage.timestamp
  | none => 0

/-- Comparator of the descending message sort inside `getChatRoomsForUser`
(`new Date(b.timestamp) - new Date(a.timestamp)`). -/
def msgDescLe (a b : Message) : Bool := b.timestamp ≤ a.timestamp

/-- Room summary construction for one room inside `getChatRoomsForUser`. -/
def MemStorage.roomDetails (s : MemStorage) (room : ChatRoom) : ChatRoomWithDetails :=
  let members := s.getRoomMembers room.id
  let roomMessages :=
    stableSort msgDescLe (s.messages.values.filter (fun msg => msg.roomId == room.id))
  let lastMessage : Option MessageWithSender :=
    match roomMessages with
    | [] => none
    | lastMsg :: _ =>
        (s.getUser lastMsg.senderId).map (fun sender => { toMessage := lastMsg, sender := sender })
  let onlineCount := (members.filter (fun member => obTrue member.isOnline)).length
  { toChatRoom := room
    members := members
    lastMessage := lastMessage
    unreadCount := 0
    onlineCount := onlineCount }

/-- `getChatRoomsForUser(userId)`: rooms having a membership row for the
user, each enriched into a summary, sorted by last-message timestamp
descending (`bTime - aTime` comparator, missing last message counted 0). -/
def MemStorage.getChatRoomsForUser (s : MemStorage) (userId : String) :
    List ChatRoomWithDetails :=
  let userRooms :=
    (s.roomMembers.values.filter (fun member => member.userId == userId)).map
      (fun member => member.roomId)
  let rooms := s.chatRooms.values.filter (fun room => userRooms.contains room.id)
  let roomsWithDetails := rooms.map (fun room => s.roomDetails room)
  stableSort (fun a b => roomSortKey b ≤ roomSortKey a) roomsWithDetails

/-! ## WebSocket room-broadcast registry (server/routes.ts)

Connections are numeric ids; `readyState === WebSocket.OPEN` is an external
predicate `isOpen` passed to delivery.  `roomClients` maps roomId to the
room's `Set<WebSocket>`, and each connection's handler closure holds the
local variables `currentRoomId` / `currentUserId`. -/

/-- Outbound event frames of `routes.ts`. -/
inductive Event where
  | userJoined (userId : String) (roomId : String)
  | userLeft (userId : String) (roomId : String)
  | typingStatusEv (userId : Option String) (isTyping : Bool) (roomId : String)
  | newMessageEv (payload : String)
deriving DecidableEq

/-- Inbound frames handled by the `ws.on('message')` switch. -/
inductive ClientFrame where
  | joinRoom (roomId : String) (userId : String)
  | newMessage (payload : String)
  | typingStatus (isTyping : Bool)
deriving DecidableEq

/-- One invocation of `broadcast(roomId, message, exclude?)`. -/
structure BroadcastCall where
  roomId : String
  event : Event
  exclude : Option Nat
deriving DecidableEq

/-- The `currentRoomId` / `currentUserId` closure variables of one
connection handler. -/
structure ConnVars where
  currentRoomId : Option String
  currentUserId : Option String
deriving DecidableEq

/-- The registry state: `roomClients` plus every connection's closure
variables. -/
structure WsServer where
  roomClients : SMap (List Nat)
  connVars : Nat → ConnVars

def initWs : WsServer :=
  { roomClients := SMap.empty, connVars := fun _ => ⟨none, none⟩ }

/-- `Set.delete`. -/
def setDelete (l : List Nat) (c : Nat) : List Nat := l.filter (fun x => x != c)

/-- `Set.add` (no-op when already present). -/
def setAdd (l : List Nat) (c : Nat) : List Nat := if l.contains c then l else l ++ [c]

/-- `broadcast(roomId, message, exclude?)`: serialize once and send to every
connection of the room's set that is not the excluded one and is open;
closed connections are skipped silently.  Returns the deliveries made. -/
def wsBroadcast (st : WsServer) (isOpen : Nat → Bool) (roomId : String)
    (event : Event) (exclude : Option Nat) : List (Nat × Event) :=
  match st.roomClients.get roomId with
  | none => []
  | some clients =>
      (clients.filter (fun client => decide (some client ≠ exclude) && isOpen client)).map
        (fun client => (client, event))

/-- The `ws.on('message')` switch.  Returns the new state and the
`broadcast` calls made (each call is issued after the state mutations of its
case, so it is delivered against the returned state).  The source guards
with JS string truthiness — `if (currentRoomId && roomClients.has(...))`
when leaving the previous room and `if (currentRoomId)` before relaying —
so a recorded room id of `""` (falsy, client-controlled via the
`join_room` frame) skips the removal and skips the relay broadcasts;
modelled by the explicit `prev != ""` / `roomId != ""` tests. -/
def wsOnMessage (st : WsServer) (conn : Nat) (frame : ClientFrame) :
    WsServer × List BroadcastCall :=
  let vars := st.connVars conn
  match frame with
  | .joinRoom roomId userId =>
      let rc0 :=
        match vars.currentRoomId with
        | some prev =>
            if prev != "" && st.roomClients.hasKey prev then
              st.roomClients.modify prev (fun s => setDelete s conn)
            else st.roomClients
        | none => st.roomClients
      let rc1 := if rc0.hasKey roomId then rc0 else rc0.set roomId []
      let rc2 := rc1.modify roomId (fun s => setAdd s conn)
      ({ roomClients := rc2
         connVars := fun c => if c = conn then ⟨some roomId, some userId⟩ else st.connVars c },
       [⟨roomId, .userJoined userId roomId, some conn⟩])
  | .newMessage payload =>
      match vars.currentRoomId with
      | some roomId =>
          if roomId != "" then (st, [⟨roomId, .newMessageEv payload, none⟩])
          else (st, [])
      | none => (st, [])
  | .typingStatus isTyping =>
      match vars.currentRoomId with
      | some roomId =>
          if roomId != "" then
            (st, [⟨roomId, .typingStatusEv vars.currentUserId isTyping roomId, some conn⟩])
          else (st, [])
      | none => (st, [])

/-- The `ws.on('close')` handler: remove the connection from its room's set
and broadcast `user_left` (excluding the closing socket) when a userId was
recorded at join time.  The source's `if (currentRoomId && roomClients.has(...))`
and `if (currentUserId)` are JS truthiness tests, so a recorded roomId of
`""` removes nothing and a recorded userId of `""` emits no `user_left`;
modelled by the explicit `!= ""` tests. -/
def wsOnClose (st : WsServer) (conn : Nat) : WsServer × List BroadcastCall :=
  let vars := st.connVars conn
  match vars.currentRoomId with
  | some roomId =>
      if roomId != "" && st.roomClients.hasKey roomId then
        let rc := st.roomClients.modify roomId (fun s => setDelete s conn)
        ({ st with roomClients := rc },
         match vars.currentUserId with
         | some userId =>
             if userId != "" then [⟨roomId, .userLeft userId roomId, some conn⟩]
             else []
         | none => [])
      else (st, [])
  | none => (st, [])

/-- One externally observable registry event. -/
inductive ServerEvent where
  | msg (conn : Nat) (frame : ClientFrame)
  | close (conn : Nat)

def wsStep (st : WsServer) : ServerEvent → WsServer
  | .msg conn frame => (wsOnMessage st conn frame).1
  | .close conn => (wsOnClose st conn).1

/-- Registry state reached from startup by a sequence of socket events. -/
def runWs (events : List ServerEvent) : WsServer :=
  events.foldl wsStep initWs

/-- Registry invariant: a connection sits only in the set of the room its
closure variables record. -/
def wsInv (st : WsServer) : Prop :=
  ∀ p ∈ st.roomClients.entries, ∀ c ∈ p.2, (st.connVars c).currentRoomId = some p.1

/-! ## HTTP route handlers (registerRoutes in server/routes.ts)

Every room-scoped handler resolves the acting user by the hardcoded
`getUserByUsername("current_user")` lookup of the source, then gates on
`isUserInRoom`.  A handler result carries the store afterwards, the HTTP
status, the JSON body when one was sent, and the `broadcast` calls the
handler made (the HTTP handlers of the source make none). -/

structure HttpResult (α : Type) where
  state : MemStorage
  status : Nat
  body : Option α
  broadcasts : List BroadcastCall

/-- `POST /api/rooms/:roomId/messages`: resolve user (404), membership
check (403), zod-parse the body (400 when `content` is missing), create the
message (500 on the unresolvable-sender throw), respond with the enriched
message.  The source also arms a 1000 ms `setTimeout` that marks the
message `"delivered"`; it makes no `broadcast` call. -/
def postMessageHandler (s : MemStorage) (roomId : String)
    (content : Option String) (msgId : String) (now : Nat) :
    HttpResult MessageWithSender :=
  match s.getUserByUsername "current_user" with
  | none => ⟨s, 404, none, []⟩
  | some user =>
      if s.isUserInRoom user.id roomId then
        match content with
        | none => ⟨s, 400, none, []⟩
        | some c =>
            match s.createMessage ⟨c, user.id, roomId⟩ msgId now with
            | (s', some message) => ⟨s', 200, some message, []⟩
            | (s', none) => ⟨s', 500, none, []⟩
      else ⟨s, 403, none, []⟩

/-- `POST /api/rooms/:roomId/typing`: resolve user (404), membership check
(403), `isTyping = req.body.isTyping ?? true`, store the typing row,
respond `{success: true}`.  No `broadcast` call is made. -/
def postTypingHandler (s : MemStorage) (roomId : String)
    (bodyIsTyping : Option Bool) (newId : String) (now : Nat) :
    HttpResult Bool :=
  match s.getUserByUsername "current_user" with
  | none => ⟨s, 404, none, []⟩
  | some user =>
      if s.isUserInRoom user.id roomId then
        let s' := s.updateTypingStatus ⟨user.id, roomId, some (bodyIsTyping.getD true)⟩ newId now
        ⟨s', 200, some true, []⟩
      else ⟨s, 403, none, []⟩

/-- `GET /api/rooms/:roomId/typing`: resolve user (404), membership check
(403), then respond with `getTypingUsers` minus the requesting user
(`typingUsers.filter(u => u.id !== user.id)`). -/
def getTypingHandler (s : MemStorage) (roomId : String) (now : Nat) :
    HttpResult (List User) :=
  match s.getUserByUsername "current_user" with
  | none => ⟨s, 404, none, []⟩
  | some user =>
      if s.isUserInRoom user.id roomId then
        let typingUsers := s.getTypingUsers roomId now
        ⟨s, 200, some (typingUsers.filter (fun u => u.id != user.id)), []⟩
      else ⟨s, 403, none, []⟩

/-- Request body of `POST /api/auth/signup`; a missing field arrives as the
empty string (JS falsiness of `undefined` and `""` coincide here). -/
structure SignupReq where
  username : String
  displayName : String
  password : String
  confirmPassword : String

structure SignupResult where
  storage : MemStorage
  sessions : SMap String
  status : Nat

/-- `POST /api/auth/signup`: field presence, password confirmation and
length checks (400), duplicate-username check (409, nothing mutated), then
`createUser`, session creation, welcome-room creation and membership. -/
def signupHandler (s : MemStorage) (sessions : SMap String) (req : SignupReq)
    (userId sessionId roomId memberId : String) (now : Nat) : SignupResult :=
  if req.username == "" || req.displayName == "" || req.password == "" then
    ⟨s, sessions, 400⟩
  else if req.password != req.confirmPassword then
    ⟨s, sessions, 400⟩
  else if req.password.length < 6 then
    ⟨s, sessions, 400⟩
  else
    match s.getUserByUsername req.username with
    | some _ => ⟨s, sessions, 409⟩
    | none =>
        let (s1, newUser) := s.createUser
          { username := req.username
            displayName := req.displayName
            password := req.password
            avatar := some ((req.displayName.take 2).toUpper)
            isOnline := some true } userId now
        let sessions' := sessions.set sessionId newUser.id
        let (s2, welcomeRoom) := s1.createChatRoom
          { name := "Welcome"
            description := some "Your first chat room"
            avatar := some "users"
            type := "group" } roomId now
        let (s3, _) := s2.addUserToRoom ⟨newUser.id, welcomeRoom.id⟩ memberId now
        ⟨s3, sessions', 200⟩

/-! ## Client reconnect logic (use-websocket.ts) -/

def maxReconnectAttempts : Nat := 5

/-- `Math.pow(2, reconnectAttempts.current) * 1000`. -/
def reconnectDelay (attempts : Nat) : Nat := 2 ^ attempts * 1000

/-- The `onclose` handler: when fewer than `maxReconnectAttempts` attempts
have been made, schedule a reconnect after the backoff delay (the timer
callback increments the counter and calls `connect`); otherwise schedule
nothing. -/
def scheduleOnClose (attempts : Nat) : Option Nat :=
  if attempts < maxReconnectAttempts then some (reconnectDelay attempts) else none

/-- Delays observed across `n` consecutive connection failures starting
from counter value `attempts` (each failure runs `onclose`; each scheduled
timer increments the counter and reconnects; `onopen` never fires). -/
def failureRun (attempts : Nat) : Nat → List Nat
  | 0 => []
  | n + 1 =>
      match scheduleOnClose attempts with
      | some d => d :: failureRun (attempts + 1) n
      | none => []

/-! ## Auxiliary map lemmas -/

theorem SMap.hasKey_of_get_some {α : Type} {m : SMap α} {k : String} {v : α}
    (h : m.get k = some v) : m.hasKey k = true := by
  unfold SMap.get at h
  rcases Option.map_eq_some'.mp h with ⟨p, hp, hv⟩
  have hmem := List.mem_of_find?_eq_some hp
  have hpred := List.find?_some hp
  exact List.any_eq_true.mpr ⟨p, hmem, hpred⟩

theorem find?_map_key_pres {α : Type} (k : String) (f : α → α) (l : List (String × α))
    (k' : String) :
    (l.map (fun q => if q.1 == k then (q.1, f q.2) else q)).find? (fun q => q.1 == k') =
      (l.find? (fun q => q.1 == k')).map (fun q => if q.1 == k then (q.1, f q.2) else q) := by
  induction l with
  | nil => rfl
  | cons a t ih =>
    have hfst : ((if a.1 == k then (a.1, f a.2) else a).1) = a.1 := by
      by_cases ha : (a.1 == k) = true
      · rw [if_pos ha]
      · rw [if_neg ha]
    rw [List.map_cons]
    by_cases hp2 : (a.1 == k') = true
    · have h1 : List.find? (fun q => q.1 == k')
          ((if a.1 == k then (a.1, f a.2) else a) ::
            t.map (fun q => if q.1 == k then (q.1, f q.2) else q)) =
          some (if a.1 == k then (a.1, f a.2) else a) :=
        List.find?_cons_of_pos _ (by rw [hfst]; exact hp2)
      have h2 : List.find? (fun q => q.1 == k') (a :: t) = some a :=
        List.find?_cons_of_pos _ hp2
      rw [h1, h2]
      rfl
    · have h1 : List.find? (fun q => q.1 == k')
          ((if a.1 == k then (a.1, f a.2) else a) ::
            t.map (fun q => if q.1 == k then (q.1, f q.2) else q)) =
          List.find? (fun q => q.1 == k')
            (t.map (fun q => if q.1 == k then (q.1, f q.2) else q)) :=
        List.find?_cons_of_neg _ (by rw [hfst]; exact hp2)
      have h2 : List.find? (fun q => q.1 == k') (a :: t) =
          List.find? (fun q => q.1 == k') t :=
        List.find?_cons_of_neg _ hp2
      rw [h1, h2]
      exact ih

theorem SMap.get_modify_self {α : Type} (m : SMap α) (k : String) (f : α → α) :
    (m.modify k f).get k = (m.get k).map f := by
  unfold SMap.modify SMap.get
  rw [find?_map_key_pres]
  cases h : m.entries.find? (fun q => q.1 == k) with
  | none => rfl
  | some q =>
      have hq := List.find?_some h
      simp only [Option.map_some']
      rw [if_pos hq]

theorem SMap.mem_set_self {α : Type} (m : SMap α) (k : String) (v : α) :
    (k, v) ∈ (m.set k v).entries := by
  unfold SMap.set
  by_cases h : m.entries.any (fun p => p.1 == k)
  · simp only [h, if_true]
    rcases List.any_eq_true.mp h with ⟨p, hp, hpk⟩
    exact List.mem_map.mpr ⟨p, hp, by simp [hpk]⟩
  · simp [h]

theorem SMap.mem_entries_set {α : Type} {m : SMap α} {k : String} {v : α} {p : String × α}
    (h : p ∈ (m.set k v).entries) : p = (k, v) ∨ (p ∈ m.entries ∧ p.1 ≠ k) := by
  unfold SMap.set at h
  by_cases ha : (m.entries.any (fun q => q.1 == k)) = true
  · rw [if_pos ha] at h
    rcases List.mem_map.mp h with ⟨q, hq, hpq⟩
    by_cases hk : (q.1 == k) = true
    · rw [if_pos hk] at hpq
      left; exact hpq.symm
    · rw [if_neg hk] at hpq
      subst hpq
      exact Or.inr ⟨hq, by simpa using hk⟩
  · rw [if_neg ha] at h
    have hfalse : (m.entries.any (fun q => q.1 == k)) = false := Bool.eq_false_iff.mpr ha
    rcases List.mem_append.mp h with h1 | h1
    · right
      refine ⟨h1, ?_⟩
      have := List.any_eq_false.mp hfalse p h1
      simpa using this
    · left; simpa using h1

theorem SMap.get_del_self {α : Type} (m : SMap α) (k : String) :
    (m.del k).get k = none := by
  unfold SMap.del SMap.get
  rw [Option.map_eq_none', List.find?_eq_none]
  intro p hp
  have := (List.mem_filter.mp hp).2
  simpa using this

theorem SMap.mem_entries_del {α : Type} {m : SMap α} {k : String} {p : String × α} :
    p ∈ (m.del k).entries ↔ p ∈ m.entries ∧ p.1 ≠ k := by
  unfold SMap.del
  simp [List.mem_filter]

/-- `filterMap` keeps the length when every element maps to `some`. -/
theorem length_filterMap_of_isSome {α β : Type} (f : α → Option β) :
    ∀ l : List α, (∀ a ∈ l, (f a).isSome) → (l.filterMap f).length = l.length := by
  intro l
  induction l with
  | nil => intro _; rfl
  | cons a t ih =>
    intro h
    rcases Option.isSome_iff_exists.mp (h a (List.mem_cons_self a t)) with ⟨b, hb⟩
    simp [List.filterMap_cons, hb, ih (fun x hx => h x (List.mem_cons_of_mem a hx))]

/-! ## Concrete states used by counterexamples and witnesses -/

def userCurrent : User :=
  { id := "u0", username := "current_user", displayName := "Cur", password := "secret",
    avatar := none, isOnline := some true, lastSeen := 0 }

def roomWelcomeObj : ChatRoom :=
  { id := "room1", name := "Welcome", description := none, avatar := some "users",
    type := "group", createdAt := 0 }

def memberRow0 : RoomMember :=
  { id := "m0", userId := "u0", roomId := "room1", joinedAt := 0 }

/-- A store holding the `current_user` and its room membership. -/
def sC1 : MemStorage :=
  { users := ⟨[("u0", userCurrent)]⟩
    chatRooms := ⟨[("room1", roomWelcomeObj)]⟩
    messages := SMap.empty
    roomMembers := ⟨[("m0", memberRow0)]⟩
    typingStatuses := SMap.empty }

/-- `sC1` plus one message sent by the current user. -/
def sMsg : MemStorage :=
  { sC1 with messages :=
      ⟨[("m1", { id := "m1", content := "hello", senderId := "u0", roomId := "room1",
                 timestamp := 3, status := "sent" })]⟩ }

/-- A store whose only message points at a sender that does not resolve. -/
def sGhost : MemStorage :=
  { users := SMap.empty
    chatRooms := SMap.empty
    messages := ⟨[("m1", { id := "m1", content := "x", senderId := "ghost", roomId := "r",
                           timestamp := 1, status := "sent" })]⟩
    roomMembers := SMap.empty
    typingStatuses := SMap.empty }

/-- A registry state with three connections 0, 1, 2 joined to room `"R"`. -/
def wsStA : WsServer :=
  { roomClients := ⟨[("R", [0, 1, 2])]⟩
    connVars := fun c =>
      if c = 0 then ⟨some "R", some "uA"⟩
      else if c = 1 then ⟨some "R", some "uB"⟩
      else if c = 2 then ⟨some "R", some "uC"⟩
      else ⟨none, none⟩ }

/-! ## C8 -/

theorem failureRun_eq (n a : Nat) :
    failureRun a n =
      (List.range (min n (maxReconnectAttempts - a))).map (fun i => 2 ^ (a + i) * 1000) := by
  induction n generalizing a with
  | zero => simp [failureRun]
  | succ n ih =>
    by_cases h : a < maxReconnectAttempts
    · have h5 : maxReconnectAttempts - a = (maxReconnectAttempts - (a + 1)) + 1 := by omega
      have hmin : min (n + 1) ((maxReconnectAttempts - (a + 1)) + 1)
          = (min n (maxReconnectAttempts - (a + 1))) + 1 := by omega
      simp only [failureRun, scheduleOnClose]
      rw [if_pos h, ih (a + 1), h5, hmin, List.range_succ_eq_map, List.map_cons,
        List.map_map]
      show reconnectDelay a ::
          List.map (fun i => 2 ^ (a + 1 + i) * 1000)
            (List.range (n ⊓ (maxReconnectAttempts - (a + 1)))) = _
      refine congrArg₂ (· :: ·) ?_ ?_
      · simp [reconnectDelay]
      · refine List.map_congr_left ?_
        intro i _
        simp only [Function.comp]
        have hia : a + 1 + i = a + Nat.succ i := by omega
        rw [hia]
    · have h0 : maxReconnectAttempts - a = 0 := by omega
      simp only [failureRun, scheduleOnClose]
      rw [if_neg h, h0]
      simp

/-- C8: on consecutive push-channel connection failures the reconnect delay
before attempt `n` (counting from 0) is `2 ^ n` seconds — 1000 ms first,
doubling each time — and once the counter reaches 5 failed attempts the
`onclose` handler schedules nothing further; only an explicit `connect`
call (or a reload) can re-establish the channel. -/
theorem reconnect_backoff_capped :
    (∀ n, n < maxReconnectAttempts → scheduleOnClose n = some (2 ^ n * 1000)) ∧
    scheduleOnClose 0 = some 1000 ∧
    (∀ n, reconnectDelay (n + 1) = 2 * reconnectDelay n) ∧
    (∀ n, maxReconnectAttempts ≤ n → scheduleOnClose n = none) ∧
    (∀ n, failureRun 0 n =
      (List.range (min n maxReconnectAttempts)).map (fun i => 2 ^ i * 1000)) := by
  refine ⟨?_, ?_, ?_, ?_, ?_⟩
  · intro n hn
    unfold scheduleOnClose reconnectDelay
    rw [if_pos hn]
  · rfl
  · intro n
    unfold reconnectDelay
    rw [Nat.pow_succ]
    ring
  · intro n hn
    unfold scheduleOnClose
    rw [if_neg (by omega)]
  · intro n
    simpa using failureRun_eq n 0

theorem reconnect_backoff_capped_witness :
    scheduleOnClose 3 = some (2 ^ 3 * 1000) ∧ scheduleOnClose 5 = none :=
  ⟨reconnect_backoff_capped.1 3 (by decide),
   reconnect_backoff_capped.2.2.2.1 5 (by decide)⟩

/-! ## C9 -/

/-- C9: `GET /api/rooms/:roomId/typing` never includes the requesting user
(the user resolved by the handler's `current_user` lookup) in its response,
even when that user's own typing row is present, typing and fresh: the
handler filters `getTypingUsers` by `u.id !== user.id` before responding. -/
theorem typing_list_excludes_requester (s : MemStorage) (roomId : String) (now : Nat)
    (user : User) (h : s.getUserByUsername "current_user" = some user) :
    ∀ v ∈ ((getTypingHandler s roomId now).body.getD []), v.id ≠ user.id := by
  intro v hv
  by_cases hm : s.isUserInRoom user.id roomId = true
  · simp only [getTypingHandler, h, hm, if_true, Option.getD_some] at hv
    have h2 := (List.mem_filter.mp hv).2
    simpa using h2
  · simp only [getTypingHandler, h] at hv
    rw [if_neg hm] at hv
    simp at hv

/-- A second user of the room. -/
def userAnn : User :=
  { id := "u1", username := "ann", displayName := "Ann", password := "pw1234",
    avatar := none, isOnline := some true, lastSeen := 0 }

/-- A store in which both users have fresh typing rows in the room. -/
def sTyping : MemStorage :=
  { sC1 with
    users := ⟨[("u0", userCurrent), ("u1", userAnn)]⟩
    typingStatuses :=
      ⟨[("u0-room1", { id := "t0", userId := "u0", roomId := "room1",
                       isTyping := some true, lastUpdate := 0 }),
        ("u1-room1", { id := "t1", userId := "u1", roomId := "room1",
                       isTyping := some true, lastUpdate := 0 })]⟩ }

theorem typing_list_excludes_requester_witness :
    userAnn ∈ ((getTypingHandler sTyping "room1" 1).body.getD []) ∧
    userAnn.id ≠ userCurrent.id :=
  ⟨by decide,
   typing_list_excludes_requester sTyping "room1" 1 userCurrent (by decide) userAnn
     (by decide)⟩

/-! ## C10 -/

/-- C10: membership uniqueness is not enforced and reads are not
de-duplicated — two `addUserToRoom` calls with the same `(user, room)` pair
(and fresh distinct row ids) create two distinct rows, after which
`getRoomMembers` returns the user twice and `isUserInRoom` is still true. -/
theorem duplicate_membership_rows (s : MemStorage) (u r : String) (userObj : User)
    (id1 id2 : String) (t1 t2 : Nat)
    (hu : s.getUser u = some userObj)
    (h1 : s.roomMembers.get id1 = none) (h2 : s.roomMembers.get id2 = none)
    (hne : id1 ≠ id2) :
    (s.addUserToRoom ⟨u, r⟩ id1 t1).2 ≠
      ((s.addUserToRoom ⟨u, r⟩ id1 t1).1.addUserToRoom ⟨u, r⟩ id2 t2).2 ∧
    ((s.addUserToRoom ⟨u, r⟩ id1 t1).1.addUserToRoom ⟨u, r⟩ id2 t2).1.getRoomMembers r =
      s.getRoomMembers r ++ [userObj, userObj] ∧
    ((s.addUserToRoom ⟨u, r⟩ id1 t1).1.addUserToRoom ⟨u, r⟩ id2 t2).1.isUserInRoom u r
      = true := by
  have e1 : (s.addUserToRoom ⟨u, r⟩ id1 t1).1.roomMembers =
      ⟨s.roomMembers.entries ++ [(id1, ⟨id1, u, r, t1⟩)]⟩ :=
    SMap.set_of_fresh _ h1
  have h2' : (s.addUserToRoom ⟨u, r⟩ id1 t1).1.roomMembers.get id2 = none := by
    rw [e1, SMap.get_eq_none_iff]
    intro p hp
    rcases List.mem_append.mp hp with hp1 | hp1
    · exact (SMap.get_eq_none_iff _ _).mp h2 p hp1
    · rw [List.mem_singleton] at hp1
      rw [hp1]
      exact hne
  have e2 : ((s.addUserToRoom ⟨u, r⟩ id1 t1).1.addUserToRoom ⟨u, r⟩ id2 t2).1.roomMembers =
      ⟨s.roomMembers.entries ++ [(id1, ⟨id1, u, r, t1⟩), (id2, ⟨id2, u, r, t2⟩)]⟩ := by
    show ((s.addUserToRoom ⟨u, r⟩ id1 t1).1.roomMembers).set id2 ⟨id2, u, r, t2⟩ = _
    rw [SMap.set_of_fresh _ h2', e1]
    simp [List.append_assoc]
  have eusers : ((s.addUserToRoom ⟨u, r⟩ id1 t1).1.addUserToRoom ⟨u, r⟩ id2 t2).1.users
      = s.users := rfl
  refine ⟨?_, ?_, ?_⟩
  · intro heq
    have : id1 = id2 := congrArg RoomMember.id heq
    exact hne this
  · unfold MemStorage.getRoomMembers
    rw [e2]
    simp only [SMap.values, List.map_append, List.filter_append, List.map_cons,
      List.map_nil, List.filterMap_append]
    have hrows : List.filter (fun member => member.roomId == r)
        [(⟨id1, u, r, t1⟩ : RoomMember), ⟨id2, u, r, t2⟩] =
        [⟨id1, u, r, t1⟩, ⟨id2, u, r, t2⟩] := by simp
    rw [hrows]
    have htail : List.filterMap (fun userId => ((s.addUserToRoom ⟨u, r⟩ id1 t1).1.addUserToRoom ⟨u, r⟩ id2 t2).1.getUser userId)
        (List.map (fun member => member.userId)
          [(⟨id1, u, r, t1⟩ : RoomMember), ⟨id2, u, r, t2⟩]) = [userObj, userObj] := by
      simp only [List.map_cons, List.map_nil]
      show List.filterMap _ [u, u] = _
      simp [List.filterMap_cons, MemStorage.getUser, eusers,
        show s.users.get u = some userObj from hu]
    rw [htail]
    rfl
  · unfold MemStorage.isUserInRoom
    rw [e2]
    refine List.any_eq_true.mpr ⟨⟨id2, u, r, t2⟩, ?_, by simp⟩
    simp [SMap.values]

theorem duplicate_membership_rows_witness :
    ((sC1.addUserToRoom ⟨"u0", "room1"⟩ "mA" 1).1.addUserToRoom
        ⟨"u0", "room1"⟩ "mB" 2).1.getRoomMembers "room1" =
      sC1.getRoomMembers "room1" ++ [userCurrent, userCurrent] :=
  (duplicate_membership_rows sC1 "u0" "room1" userCurrent "mA" "mB" 1 2
    (by decide) (by decide) (by decide) (by decide)).2.1

/-! ## C1 -/

/-- C1 as stated is false on the code: at this concrete store the
`POST /api/rooms/:roomId/messages` handler succeeds (status 200, the
created message is returned) and yet makes no `broadcast` call at all — the
store mutation is not followed by any publish on the room registry. -/
theorem post_message_mutates_without_publish_cex :
    (postMessageHandler sC1 "room1" (some "hi") "msg1" 5).status = 200 ∧
    (postMessageHandler sC1 "room1" (some "hi") "msg1" 5).body =
      some { id := "msg1", content := "hi", senderId := "u0", roomId := "room1",
             timestamp := 5, status := "sent", sender := userCurrent } ∧
    (postMessageHandler sC1 "room1" (some "hi") "msg1" 5).broadcasts = [] := by
  refine ⟨by decide, by decide, by decide⟩

/-- C1 (amended): the HTTP mutating endpoints (send message, set typing)
perform the store mutation and answer over HTTP without ever calling
`broadcast`; room members receive a push only when the client itself relays
the event over the WebSocket channel while joined to a room with a
nonempty (JS-truthy) id, where a `new_message` relay is broadcast
excluding no connection (the sender's own connection included) while a
`typing_status` relay excludes the sender's connection; with the falsy
recorded room id `""` the relay cases broadcast nothing. -/
theorem mutating_requests_push_via_ws_only :
    (∀ s roomId content msgId now,
      (postMessageHandler s roomId content msgId now).broadcasts = []) ∧
    (∀ s roomId b newId now,
      (postTypingHandler s roomId b newId now).broadcasts = []) ∧
    (∀ st conn payload roomId, (st.connVars conn).currentRoomId = some roomId →
      roomId ≠ "" →
      (wsOnMessage st conn (.newMessage payload)).2 =
        [⟨roomId, .newMessageEv payload, none⟩]) ∧
    (∀ st conn b roomId, (st.connVars conn).currentRoomId = some roomId →
      roomId ≠ "" →
      (wsOnMessage st conn (.typingStatus b)).2 =
        [⟨roomId, .typingStatusEv (st.connVars conn).currentUserId b roomId, some conn⟩]) ∧
    (∀ st conn payload, (st.connVars conn).currentRoomId = some "" →
      (wsOnMessage st conn (.newMessage payload)).2 = []) ∧
    (∀ st conn b, (st.connVars conn).currentRoomId = some "" →
      (wsOnMessage st conn (.typingStatus b)).2 = []) := by
  refine ⟨?_, ?_, ?_, ?_, ?_, ?_⟩
  · intro s roomId content msgId now
    cases hu : s.getUserByUsername "current_user" with
    | none => simp [postMessageHandler, hu]
    | some user =>
      by_cases hm : s.isUserInRoom user.id roomId = true
      · cases content with
        | none => simp [postMessageHandler, hu, hm]
        | some c =>
          rcases hc : s.createMessage ⟨c, user.id, roomId⟩ msgId now with ⟨s', mo⟩
          cases mo with
          | none => simp [postMessageHandler, hu, hm, hc]
          | some m => simp [postMessageHandler, hu, hm, hc]
      · simp [postMessageHandler, hu, hm]
  · intro s roomId b newId now
    cases hu : s.getUserByUsername "current_user" with
    | none => simp [postTypingHandler, hu]
    | some user =>
      by_cases hm : s.isUserInRoom user.id roomId = true
      · simp [postTypingHandler, hu, hm]
      · simp [postTypingHandler, hu, hm]
  · intro st conn payload roomId h hne
    have hb : (roomId != "") = true := by simp [hne]
    simp [wsOnMessage, h, hb]
  · intro st conn b roomId h hne
    have hb : (roomId != "") = true := by simp [hne]
    simp [wsOnMessage, h, hb]
  · intro st conn payload h
    simp [wsOnMessage, h]
  · intro st conn b h
    simp [wsOnMessage, h]

theorem mutating_requests_push_via_ws_only_witness :
    (postTypingHandler sC1 "room1" none "t1" 7).broadcasts = [] ∧
    (wsOnMessage wsStA 0 (.newMessage "p")).2 = [⟨"R", .newMessageEv "p", none⟩] ∧
    (wsOnMessage wsStA 0 (.typingStatus true)).2 =
      [⟨"R", .typingStatusEv (some "uA") true "R", some 0⟩] :=
  ⟨mutating_requests_push_via_ws_only.2.1 sC1 "room1" none "t1" 7,
   mutating_requests_push_via_ws_only.2.2.1 wsStA 0 "p" "R" (by decide) (by decide),
   mutating_requests_push_via_ws_only.2.2.2.1 wsStA 0 true "R" (by decide) (by decide)⟩

/-! ## C2 counterexample -/

/-- C2 as stated is false on the code: at this concrete store the room's
message list contains a message whose sender does not resolve, yet
`getMessages` does not fail with any error — it silently returns the empty
list, dropping the message. -/
theorem get_messages_silent_drop_cex :
    sGhost.messages.values.filter (fun m => m.roomId == "r") ≠ [] ∧
    sGhost.getUser "ghost" = none ∧
    sGhost.getMessages "r" 50 0 = [] := by
  refine ⟨by decide, by decide, by decide⟩

/-! ## C2 (amended theorem) -/

theorem msgAscLe_total : ∀ a b, msgAscLe a b = true ∨ msgAscLe b a = true := by
  intro a b
  unfold msgAscLe
  rcases Nat.le_total a.timestamp b.timestamp with h | h
  · left; simpa using h
  · right; simpa using h

theorem msgAscLe_trans :
    ∀ a b c, msgAscLe a b = true → msgAscLe b c = true → msgAscLe a c = true := by
  intro a b c hab hbc
  unfold msgAscLe at hab hbc ⊢
  simp only [decide_eq_true_eq] at hab hbc ⊢
  exact Nat.le_trans hab hbc

/-- C2 (amended): `getMessages(roomId, limit, offset)` returns the room's
messages ordered by timestamp ascending within a stable pagination window
of size `limit` starting at `offset` (adjacent windows compose exactly),
with each returned message enriched with its sender snapshot; a message
whose `senderId` does not resolve is silently omitted — no error is raised
(when every sender resolves, the window is complete). -/
theorem get_messages_window_spec (s : MemStorage) (roomId : String)
    (limit offset l1 l2 : Nat) :
    (∀ x ∈ s.getMessages roomId limit offset,
        s.getUser x.senderId = some x.sender ∧ x.roomId = roomId) ∧
    (s.getMessages roomId limit offset).Pairwise
      (fun a b => a.timestamp ≤ b.timestamp) ∧
    s.getMessages roomId l1 offset ++ s.getMessages roomId l2 (offset + l1) =
      s.getMessages roomId (l1 + l2) offset ∧
    ((∀ m ∈ s.messages.values, (s.getUser m.senderId).isSome) →
      (s.getMessages roomId limit offset).length =
        min limit ((s.messages.values.filter (fun m => m.roomId == roomId)).length
          - offset)) := by
  have hsorted :
      (stableSort msgAscLe
        (s.messages.values.filter (fun msg => msg.roomId == roomId))).Pairwise
        (fun a b => msgAscLe a b = true) :=
    pairwise_stableSort msgAscLe_total msgAscLe_trans _
  have hwinsub : ∀ (lim off : Nat),
      (((stableSort msgAscLe
          (s.messages.values.filter (fun msg => msg.roomId == roomId))).drop off).take
        lim).Sublist
        (stableSort msgAscLe
          (s.messages.values.filter (fun msg => msg.roomId == roomId))) := by
    intro lim off
    exact (List.take_sublist _ _).trans (List.drop_sublist _ _)
  refine ⟨?_, ?_, ?_, ?_⟩
  · intro x hx
    simp only [MemStorage.getMessages] at hx
    rcases List.mem_filterMap.mp hx with ⟨m, hm, hfm⟩
    rcases Option.map_eq_some'.mp hfm with ⟨sender, hsender, hxval⟩
    have hmem2 : m ∈ stableSort msgAscLe
        (s.messages.values.filter (fun msg => msg.roomId == roomId)) :=
      (hwinsub limit offset).mem hm
    have hmfil := (mem_stableSort msgAscLe).mp hmem2
    have hpred := (List.mem_filter.mp hmfil).2
    constructor
    · rw [← hxval]
      exact hsender
    · rw [← hxval]
      simpa using hpred
  · simp only [MemStorage.getMessages]
    refine List.pairwise_filterMap.mpr ?_
    have hwin := List.Pairwise.sublist (hwinsub limit offset) hsorted
    refine hwin.imp ?_
    intro m m' hle x hxm x' hxm'
    rcases Option.map_eq_some'.mp (Option.mem_def.mp hxm) with ⟨sa, _, hxa⟩
    rcases Option.map_eq_some'.mp (Option.mem_def.mp hxm') with ⟨sb, _, hxb⟩
    rw [← hxa, ← hxb]
    unfold msgAscLe at hle
    simpa using hle
  · simp only [MemStorage.getMessages]
    rw [← List.filterMap_append]
    congr 1
    rw [List.take_add, List.drop_drop]
  · intro hall
    simp only [MemStorage.getMessages]
    have hlen := length_filterMap_of_isSome
      (fun message => (s.getUser message.senderId).map
        (fun sender => ({ toMessage := message, sender := sender } : MessageWithSender)))
      (((stableSort msgAscLe
          (s.messages.values.filter (fun msg => msg.roomId == roomId))).drop offset).take
        limit)
      (by
        intro m hm
        have hmem2 := (mem_stableSort msgAscLe).mp ((hwinsub limit offset).mem hm)
        have hmv := (List.mem_filter.mp hmem2).1
        simpa using hall m hmv)
    rw [hlen, List.length_take, List.length_drop,
      (stableSort_perm msgAscLe _).length_eq]

theorem get_messages_window_spec_witness :
    (∀ m ∈ sMsg.messages.values, (sMsg.getUser m.senderId).isSome) ∧
    (sMsg.getMessages "room1" 50 0).length =
      min 50 ((sMsg.messages.values.filter (fun m => m.roomId == "room1")).length - 0) :=
  ⟨by decide, (get_messages_window_spec sMsg "room1" 50 0 1 1).2.2.2 (by decide)⟩

/-! ## C3 -/

/-- Well-formedness of the users map: every entry holds a user whose id is
its key (true of every map the API builds — `users.set(user.id, user)`). -/
def usersWF (s : MemStorage) : Prop :=
  ∀ p ∈ s.users.entries, p.2.id = p.1

/-- Well-formedness of the typing map: every entry sits under the
`` `${userId}-${roomId}` `` key of its own row (true of every map the API
builds — rows are only written by `updateTypingStatus`). -/
def typingWF (s : MemStorage) : Prop :=
  ∀ p ∈ s.typingStatuses.entries, p.1 = typingKey p.2.userId p.2.roomId

theorem usersWF_id_of_get {s : MemStorage} (h : usersWF s) {k : String} {v : User}
    (hget : s.getUser k = some v) : v.id = k := by
  unfold MemStorage.getUser SMap.get at hget
  rcases Option.map_eq_some'.mp hget with ⟨p, hp, hv⟩
  have hmem := List.mem_of_find?_eq_some hp
  have hpred := List.find?_some hp
  have := h p hmem
  rw [hv] at this
  rw [this]
  exact eq_of_beq hpred

theorem update_typing_eq (s : MemStorage) (u r newId : String) (t : Nat) :
    (s.updateTypingStatus ⟨u, r, some true⟩ newId t).typingStatuses =
      s.typingStatuses.set (typingKey u r)
        { id := match s.typingStatuses.get (typingKey u r) with
                | some e => e.id
                | none => newId
          userId := u, roomId := r, isTyping := some true, lastUpdate := t } := rfl

/-- Characterization of `getTypingUsers`: a user is returned exactly when
some typing row of the room is truthy-typing, fresher than 5000 ms, and
resolves to that user. -/
theorem mem_getTypingUsers_iff (s : MemStorage) (r : String) (now : Nat) (v : User) :
    v ∈ s.getTypingUsers r now ↔
      ∃ row ∈ s.typingStatuses.values, row.roomId = r ∧ obTrue row.isTyping = true ∧
        now - row.lastUpdate < 5000 ∧ s.getUser row.userId = some v := by
  unfold MemStorage.getTypingUsers
  constructor
  · intro hv
    rcases List.mem_filterMap.mp hv with ⟨uid, huid, hres⟩
    rcases List.mem_map.mp huid with ⟨row, hrow, huideq⟩
    have hmem := (List.mem_filter.mp hrow).1
    have hpred := (List.mem_filter.mp hrow).2
    simp only [Bool.and_eq_true, beq_iff_eq, decide_eq_true_eq] at hpred
    refine ⟨row, hmem, hpred.1.1, hpred.1.2, hpred.2, ?_⟩
    rw [huideq]
    exact hres
  · rintro ⟨row, hmem, hroom, htyp, hfresh, hres⟩
    refine List.mem_filterMap.mpr ⟨row.userId, ?_, hres⟩
    refine List.mem_map.mpr ⟨row, ?_, rfl⟩
    refine List.mem_filter.mpr ⟨hmem, ?_⟩
    simp [hroom, htyp, hfresh]

theorem typingWF_update (s : MemStorage) (u r newId : String) (t : Nat)
    (htyping : typingWF s) :
    typingWF (s.updateTypingStatus ⟨u, r, some true⟩ newId t) := by
  intro p hp
  rw [update_typing_eq] at hp
  rcases SMap.mem_entries_set hp with hnew | ⟨hold, _⟩
  · rw [hnew]
  · exact htyping p hold

theorem update_rows_stamped (s : MemStorage) (u r newId : String) (t : Nat)
    (htyping : typingWF s) :
    ∀ row ∈ (s.updateTypingStatus ⟨u, r, some true⟩ newId t).typingStatuses.values,
      row.userId = u → row.roomId = r → row.lastUpdate = t := by
  intro row hrow hru hrr
  rcases List.mem_map.mp hrow with ⟨p, hp, hpv⟩
  rw [update_typing_eq] at hp
  rcases SMap.mem_entries_set hp with hnew | ⟨hold, hkey⟩
  · rw [hnew] at hpv
    rw [← hpv]
  · exfalso
    apply hkey
    rw [htyping p hold, hpv, hru, hrr]

/-- C3: the typing lifecycle — immediately after `updateTypingStatus(u, r,
true)` at time `t`, `getTypingUsers(r)` at time `t` includes `u`;
`getTypingUsers` returns exactly the users of fresh truthy typing rows
(strict 5000 ms window); any row 6000 ms or older is excluded even if the
3-second clear timer never fired; and once the scheduled
`clearTypingStatus(u, r)` fires with no intervening call the row is gone
and `u` is excluded. -/
theorem typing_status_lifecycle (s : MemStorage) (u r : String) (userObj : User)
    (newId : String) (t : Nat)
    (husers : usersWF s) (htyping : typingWF s)
    (hu : s.getUser u = some userObj) :
    userObj ∈ (s.updateTypingStatus ⟨u, r, some true⟩ newId t).getTypingUsers r t ∧
    (∀ now v, v ∈ s.getTypingUsers r now ↔
      ∃ row ∈ s.typingStatuses.values, row.roomId = r ∧ obTrue row.isTyping = true ∧
        now - row.lastUpdate < 5000 ∧ s.getUser row.userId = some v) ∧
    (∀ now, t + 6000 ≤ now →
      ∀ v ∈ (s.updateTypingStatus ⟨u, r, some true⟩ newId t).getTypingUsers r now,
        v.id ≠ u) ∧
    ((s.updateTypingStatus ⟨u, r, some true⟩ newId t).clearTypingStatus u
        r).typingStatuses.get (typingKey u r) = none ∧
    (∀ now v,
      v ∈ ((s.updateTypingStatus ⟨u, r, some true⟩ newId t).clearTypingStatus u
        r).getTypingUsers r now → v.id ≠ u) := by
  have husers1 : usersWF (s.updateTypingStatus ⟨u, r, some true⟩ newId t) := husers
  have htyping1 := typingWF_update s u r newId t htyping
  refine ⟨?_, ?_, ?_, ?_, ?_⟩
  · refine (mem_getTypingUsers_iff _ r t userObj).mpr ?_
    refine ⟨{ id := match s.typingStatuses.get (typingKey u r) with
                    | some e => e.id
                    | none => newId
              userId := u, roomId := r, isTyping := some true, lastUpdate := t },
      ?_, rfl, rfl, by simp, hu⟩
    refine List.mem_map.mpr ⟨(typingKey u r, _), ?_, rfl⟩
    rw [update_typing_eq]
    exact SMap.mem_set_self _ _ _
  · intro now v
    exact mem_getTypingUsers_iff s r now v
  · intro now hnow v hv
    rcases (mem_getTypingUsers_iff _ r now v).mp hv with
      ⟨row, hrow, hroom, _, hfresh, hres⟩
    intro hvid
    have hrid : v.id = row.userId := (usersWF_id_of_get husers1 hres).symm ▸ rfl
    have hru : row.userId = u := by rw [← usersWF_id_of_get husers1 hres, hvid]
    have hstamp := update_rows_stamped s u r newId t htyping row hrow hru hroom
    rw [hstamp] at hfresh
    omega
  · show ((s.updateTypingStatus ⟨u, r, some true⟩ newId t).typingStatuses.del
      (typingKey u r)).get (typingKey u r) = none
    exact SMap.get_del_self _ _
  · intro now v hv
    rcases (mem_getTypingUsers_iff _ r now v).mp hv with
      ⟨row, hrow, hroom, _, _, hres⟩
    intro hvid
    have hru : row.userId = u := by
      rw [← usersWF_id_of_get (s := (s.updateTypingStatus ⟨u, r, some true⟩ newId
        t).clearTypingStatus u r) husers hres, hvid]
    rcases List.mem_map.mp hrow with ⟨p, hp, hpv⟩
    have hp2 : p ∈ ((s.updateTypingStatus ⟨u, r, some true⟩ newId
        t).typingStatuses.del (typingKey u r)).entries := hp
    rcases SMap.mem_entries_del.mp hp2 with ⟨hold, hkey⟩
    apply hkey
    rw [htyping1 p hold, hpv, hru, hroom]

theorem typing_status_lifecycle_witness :
    userCurrent ∈
      (sC1.updateTypingStatus ⟨"u0", "room1", some true⟩ "t9" 0).getTypingUsers
        "room1" 0 :=
  (typing_status_lifecycle sC1 "u0" "room1" userCurrent "t9" 0
    (by unfold usersWF; decide) (by unfold typingWF; decide) (by decide)).1

/-! ## C4 -/

theorem foldr_max_le {l : List Nat} {h : Nat} (hub : ∀ x ∈ l, x ≤ h) :
    l.foldr max 0 ≤ h := by
  induction l with
  | nil => exact Nat.zero_le h
  | cons a t ih =>
    simp only [List.foldr_cons]
    exact max_le (hub a (List.mem_cons_self a t))
      (ih fun x hx => hub x (List.mem_cons_of_mem a hx))

theorem le_foldr_max {l : List Nat} {h : Nat} (hmem : h ∈ l) : h ≤ l.foldr max 0 := by
  induction l with
  | nil => cases hmem
  | cons a t ih =>
    simp only [List.foldr_cons]
    rcases List.mem_cons.mp hmem with rfl | hmem2
    · exact le_max_left _ _
    · exact le_trans (ih hmem2) (le_max_right _ _)

theorem foldr_max_eq {l : List Nat} {h : Nat} (hmem : h ∈ l) (hub : ∀ x ∈ l, x ≤ h) :
    l.foldr max 0 = h :=
  Nat.le_antisymm (foldr_max_le hub) (le_foldr_max hmem)

theorem msgDescLe_total : ∀ a b, msgDescLe a b = true ∨ msgDescLe b a = true := by
  intro a b
  unfold msgDescLe
  rcases Nat.le_total b.timestamp a.timestamp with h | h
  · left; simpa using h
  · right; simpa using h

theorem msgDescLe_trans :
    ∀ a b c, msgDescLe a b = true → msgDescLe b c = true → msgDescLe a c = true := by
  intro a b c hab hbc
  unfold msgDescLe at hab hbc ⊢
  simp only [decide_eq_true_eq] at hab hbc ⊢
  exact Nat.le_trans hbc hab

/-- The final sort key of a room summary equals the maximum timestamp of
the room's messages (0 when there are none), provided every message's
sender resolves. -/
theorem roomDetails_sortKey (s : MemStorage) (room : ChatRoom)
    (hall : ∀ msg ∈ s.messages.values, (s.getUser msg.senderId).isSome) :
    roomSortKey (s.roomDetails room) =
      ((s.messages.values.filter (fun msg => msg.roomId == room.id)).map
        (fun msg => msg.timestamp)).foldr max 0 := by
  have hkey : roomSortKey (s.roomDetails room) =
      match stableSort msgDescLe
          (s.messages.values.filter (fun msg => msg.roomId == room.id)) with
      | [] => 0
      | lastMsg :: _ =>
          match s.getUser lastMsg.senderId with
          | some _ => lastMsg.timestamp
          | none => 0 := by
    unfold MemStorage.roomDetails roomSortKey
    cases stableSort msgDescLe
        (s.messages.values.filter (fun msg => msg.roomId == room.id)) with
    | nil => rfl
    | cons lastMsg rest =>
        show (match (s.getUser lastMsg.senderId).map
            (fun sender => ({ toMessage := lastMsg, sender := sender } : MessageWithSender)) with
          | some lastMessage => lastMessage.timestamp
          | none => 0) =
          match s.getUser lastMsg.senderId with
          | some _ => lastMsg.timestamp
          | none => 0
        cases s.getUser lastMsg.senderId with
        | some sender => rfl
        | none => rfl
  cases hs : stableSort msgDescLe
      (s.messages.values.filter (fun msg => msg.roomId == room.id)) with
  | nil =>
    rw [hkey, hs]
    have hperm := stableSort_perm msgDescLe
      (s.messages.values.filter (fun msg => msg.roomId == room.id))
    rw [hs] at hperm
    rw [hperm.symm.eq_nil]
    rfl
  | cons lastMsg rest =>
    rw [hkey, hs]
    show (match s.getUser lastMsg.senderId with
          | some _ => lastMsg.timestamp
          | none => 0) = _
    have hperm := stableSort_perm msgDescLe
      (s.messages.values.filter (fun msg => msg.roomId == room.id))
    rw [hs] at hperm
    have hmem : lastMsg ∈ s.messages.values.filter (fun msg => msg.roomId == room.id) :=
      hperm.mem_iff.mp (List.mem_cons_self lastMsg rest)
    have hres := hall lastMsg (List.mem_filter.mp hmem).1
    rcases Option.isSome_iff_exists.mp hres with ⟨sender, hsender⟩
    rw [hsender]
    have hsorted := pairwise_stableSort msgDescLe_total msgDescLe_trans
      (s.messages.values.filter (fun msg => msg.roomId == room.id))
    rw [hs] at hsorted
    have hub : ∀ x ∈ (s.messages.values.filter
        (fun msg => msg.roomId == room.id)).map (fun msg => msg.timestamp),
        x ≤ lastMsg.timestamp := by
      intro x hx
      rcases List.mem_map.mp hx with ⟨y, hy, hxy⟩
      have hy2 : y ∈ lastMsg :: rest := hperm.mem_iff.mpr hy
      rcases List.mem_cons.mp hy2 with hyl | hyr
      · rw [← hxy, hyl]
      · have hdesc := (List.pairwise_cons.mp hsorted).1 y hyr
        unfold msgDescLe at hdesc
        rw [← hxy]
        simpa using hdesc
    have hmemts : lastMsg.timestamp ∈ (s.messages.values.filter
        (fun msg => msg.roomId == room.id)).map (fun msg => msg.timestamp) :=
      List.mem_map.mpr ⟨lastMsg, hmem, rfl⟩
    exact (foldr_max_eq hmemts hub).symm

/-- C4: `getChatRoomsForUser(u)` returns a summary for exactly those rooms
having a membership row for `u` — never a room without one and always every
(existing) room with one — ordered by most-recent-message timestamp
descending via the sort key, a room with no messages carrying key 0 and
therefore sorting last; when every sender resolves the key is exactly the
maximum message timestamp of the room. -/
theorem rooms_for_user_spec (s : MemStorage) (userId : String) :
    (∀ rid, (∃ d ∈ s.getChatRoomsForUser userId, d.id = rid) ↔
      ((∃ room ∈ s.chatRooms.values, room.id = rid) ∧
       ∃ m ∈ s.roomMembers.values, m.userId = userId ∧ m.roomId = rid)) ∧
    (s.getChatRoomsForUser userId).Pairwise
      (fun a b => roomSortKey b ≤ roomSortKey a) ∧
    ((∀ msg ∈ s.messages.values, (s.getUser msg.senderId).isSome) →
      ∀ d ∈ s.getChatRoomsForUser userId,
        roomSortKey d =
          ((s.messages.values.filter (fun msg => msg.roomId == d.id)).map
            (fun msg => msg.timestamp)).foldr max 0) := by
  refine ⟨?_, ?_, ?_⟩
  · intro rid
    constructor
    · rintro ⟨d, hd, hdid⟩
      have hd2 := (mem_stableSort _).mp hd
      rcases List.mem_map.mp hd2 with ⟨room, hroom, hdr⟩
      have hfil := List.mem_filter.mp hroom
      have hid : d.id = room.id := by rw [← hdr]; rfl
      have hrid : room.id = rid := by rw [← hid, hdid]
      refine ⟨⟨room, hfil.1, hrid⟩, ?_⟩
      have hc : room.id ∈ (s.roomMembers.values.filter
          (fun member => member.userId == userId)).map (fun member => member.roomId) :=
        List.elem_iff.mp hfil.2
      rcases List.mem_map.mp hc with ⟨m, hm, hmr⟩
      have hmf := List.mem_filter.mp hm
      refine ⟨m, hmf.1, ?_, ?_⟩
      · have := hmf.2
        simpa using this
      · rw [hmr, hrid]
    · rintro ⟨⟨room, hroomv, hrid⟩, ⟨m, hmv, hmu, hmr⟩⟩
      refine ⟨s.roomDetails room, ?_, hrid⟩
      refine (mem_stableSort _).mpr ?_
      refine List.mem_map.mpr ⟨room, ?_, rfl⟩
      refine List.mem_filter.mpr ⟨hroomv, ?_⟩
      refine List.elem_iff.mpr ?_
      refine List.mem_map.mpr ⟨m, ?_, ?_⟩
      · exact List.mem_filter.mpr ⟨hmv, by simp [hmu]⟩
      · rw [hmr, hrid]
  · refine (pairwise_stableSort ?_ ?_ _).imp ?_
    · intro a b
      rcases Nat.le_total (roomSortKey b) (roomSortKey a) with h | h
      · left; simpa using h
      · right; simpa using h
    · intro a b c hab hbc
      simp only [decide_eq_true_eq] at hab hbc ⊢
      omega
    · intro a b h
      simpa using h
  · intro hall d hd
    have hd2 := (mem_stableSort _).mp hd
    rcases List.mem_map.mp hd2 with ⟨room, hroom, hdr⟩
    subst hdr
    exact roomDetails_sortKey s room hall

theorem rooms_for_user_spec_witness :
    roomSortKey (sMsg.roomDetails roomWelcomeObj) =
      ((sMsg.messages.values.filter
          (fun msg => msg.roomId == (sMsg.roomDetails roomWelcomeObj).id)).map
        (fun msg => msg.timestamp)).foldr max 0 :=
  (rooms_for_user_spec sMsg "u0").2.2 (by decide)
    (sMsg.roomDetails roomWelcomeObj) (by decide)

/-! ## C5 -/

/-- A registry state whose falsy room `""` holds three members, with
connection 0's join-time variables recording room `""` and user `"uA"`
(reachable: a `join_room` frame with `roomId: ""` adds the socket and
records those variables). -/
def wsStE : WsServer :=
  { roomClients := ⟨[("", [0, 1, 2])]⟩
    connVars := fun c =>
      if c = 0 then ⟨some "", some "uA"⟩
      else if c = 1 then ⟨some "", some "uB"⟩
      else if c = 2 then ⟨some "", some "uC"⟩
      else ⟨none, none⟩ }

/-- C5 as stated is false on the code at the falsy room id: when member 0
of room `""` disconnects, the close handler's `if (currentRoomId && ...)`
truthiness guard fails, so the socket is not removed from the room's set
and no `user_left` event at all is delivered to the remaining members. -/
theorem close_empty_room_no_user_left_cex :
    (wsOnClose wsStE 0).2 = [] ∧
    (wsOnClose wsStE 0).1.roomClients.get "" = some [0, 1, 2] := by
  refine ⟨by decide, by decide⟩

/-- C5 (amended): for a room `R` with a nonempty (JS-truthy) id whose set
holds the open connections `A`, `B`, `C`, `broadcast` excluding `A`
delivers the event to exactly `B` and `C` and not to `A`; a connection
that is not open is skipped silently; and when member `A` — whose
join-time variables record the nonempty `R` and a nonempty userId —
disconnects, exactly one `user_left` event carrying that userId is
delivered to each remaining member.  (With a falsy recorded roomId or
userId the close handler removes nothing or emits nothing.) -/
theorem broadcast_fanout_and_user_left (st : WsServer) (isOpen isOpen2 : Nat → Bool)
    (R : String) (A B C : Nat) (uid : String) (ev : Event)
    (hclients : st.roomClients.get R = some [A, B, C])
    (hR : R ≠ "") (huid : uid ≠ "")
    (hAB : A ≠ B) (hAC : A ≠ C)
    (hA : isOpen A = true) (hB : isOpen B = true) (hC : isOpen C = true)
    (h2B : isOpen2 B = false) (h2C : isOpen2 C = true)
    (hvars : st.connVars A = ⟨some R, some uid⟩) :
    wsBroadcast st isOpen R ev (some A) = [(B, ev), (C, ev)] ∧
    wsBroadcast st isOpen2 R ev (some A) = [(C, ev)] ∧
    (wsOnClose st A).2 = [⟨R, .userLeft uid R, some A⟩] ∧
    wsBroadcast (wsOnClose st A).1 isOpen R (.userLeft uid R) (some A) =
      [(B, .userLeft uid R), (C, .userLeft uid R)] := by
  have hBA := Ne.symm hAB
  have hCA := Ne.symm hAC
  have hkeyR := SMap.hasKey_of_get_some hclients
  have hbR : (R != "") = true := by simp [hR]
  have hbuid : (uid != "") = true := by simp [huid]
  refine ⟨?_, ?_, ?_, ?_⟩
  · simp [wsBroadcast, hclients, hA, hB, hC, hBA, hCA]
  · simp [wsBroadcast, hclients, h2B, h2C, hBA, hCA]
  · simp [wsOnClose, hvars, hkeyR, hbR, hbuid]
  · have hstate : (wsOnClose st A).1.roomClients.get R = some [B, C] := by
      have hrc : (wsOnClose st A).1.roomClients =
          st.roomClients.modify R (fun clients => setDelete clients A) := by
        simp [wsOnClose, hvars, hkeyR, hbR]
      rw [hrc, SMap.get_modify_self, hclients]
      simp [setDelete, hBA, hCA]
    simp [wsBroadcast, hstate, hB, hC, hBA, hCA]

theorem broadcast_fanout_and_user_left_witness :
    wsBroadcast wsStA (fun _ => true) "R" (.newMessageEv "p") (some 0) =
      [(1, .newMessageEv "p"), (2, .newMessageEv "p")] ∧
    wsBroadcast wsStA (fun c => c != 1) "R" (.newMessageEv "p") (some 0) =
      [(2, .newMessageEv "p")] ∧
    (wsOnClose wsStA 0).2 = [⟨"R", .userLeft "uA" "R", some 0⟩] :=
  (fun h => ⟨h.1, h.2.1, h.2.2.1⟩)
    (broadcast_fanout_and_user_left wsStA (fun _ => true) (fun c => c != 1) "R" 0 1 2
      "uA" (.newMessageEv "p") (by decide) (by decide) (by decide) (by decide)
      (by decide) (by decide) (by decide) (by decide) (by decide) (by decide)
      (by decide))

/-! ## C6 -/

/-- The user record `createUser` builds from one signup triple
(payload, fresh id, timestamp). -/
def mkUser (e : InsertUser × String × Nat) : User :=
  { id := e.2.1, username := e.1.username, displayName := e.1.displayName,
    password := e.1.password, avatar := e.1.avatar, isOnline := e.1.isOnline,
    lastSeen := e.2.2 }

/-- A sequence of `createUser` calls. -/
def foldCreateUsers (s : MemStorage) (l : List (InsertUser × String × Nat)) :
    MemStorage :=
  l.foldl (fun st e => (st.createUser e.1 e.2.1 e.2.2).1) s

theorem foldCreateUsers_entries (l : List (InsertUser × String × Nat)) :
    ∀ s : MemStorage, (∀ e ∈ l, s.users.get e.2.1 = none) →
      (l.map (fun e => e.2.1)).Nodup →
      (foldCreateUsers s l).users.entries =
        s.users.entries ++ l.map (fun e => (e.2.1, mkUser e)) := by
  induction l with
  | nil => intro s _ _; simp [foldCreateUsers]
  | cons e t ih =>
    intro s hfresh hids
    have hset : (s.createUser e.1 e.2.1 e.2.2).1.users =
        ⟨s.users.entries ++ [(e.2.1, mkUser e)]⟩ :=
      SMap.set_of_fresh _ (hfresh e (List.mem_cons_self e t))
    have hfresh1 : ∀ e' ∈ t, (s.createUser e.1 e.2.1 e.2.2).1.users.get e'.2.1 = none := by
      intro e' he'
      rw [hset, SMap.get_eq_none_iff]
      intro p hp
      rcases List.mem_append.mp hp with h1 | h1
      · exact (SMap.get_eq_none_iff _ _).mp (hfresh e' (List.mem_cons_of_mem e he')) p h1
      · rw [List.mem_singleton] at h1
        rw [h1]
        intro hek
        have hnd := List.nodup_cons.mp hids
        apply hnd.1
        show e.2.1 ∈ List.map (fun e => e.2.1) t
        have hek2 : e.2.1 = e'.2.1 := hek
        rw [hek2]
        exact List.mem_map.mpr ⟨e', he', rfl⟩
    have htail := ih (s.createUser e.1 e.2.1 e.2.2).1 hfresh1 (List.nodup_cons.mp hids).2
    show (foldCreateUsers (s.createUser e.1 e.2.1 e.2.2).1 t).users.entries = _
    rw [htail, hset]
    simp

theorem find?_created (e : InsertUser × String × Nat) :
    ∀ l : List (InsertUser × String × Nat), e ∈ l →
      (l.map (fun e => e.1.username)).Nodup →
      (l.map mkUser).find? (fun user => user.username == e.1.username) =
        some (mkUser e) := by
  intro l
  induction l with
  | nil => intro he; cases he
  | cons a t ih =>
    intro he hnames
    rw [List.map_cons]
    rcases List.mem_cons.mp he with heq | het
    · rw [heq]
      exact List.find?_cons_of_pos _ (by simp [mkUser])
    · have hnd := List.nodup_cons.mp hnames
      have hne : (mkUser a).username ≠ e.1.username := by
        intro hcontra
        apply hnd.1
        have hau : a.1.username = e.1.username := hcontra
        show a.1.username ∈ List.map (fun e => e.1.username) t
        rw [hau]
        exact List.mem_map.mpr ⟨e, het, rfl⟩
      rw [List.find?_cons_of_neg _ (by simpa using hne)]
      exact ih het hnd.2

/-- C6: a sequence of `createUser` calls with pairwise-distinct (and fresh)
usernames and fresh distinct ids all succeed, and afterwards
`getUserByUsername` resolves each created user by its own username; a
signup request repeating an existing username (with otherwise valid
fields) is rejected with 409 Conflict leaving the store — in particular
the number of users — unchanged. -/
theorem signup_unique_username_conflict (s : MemStorage)
    (l : List (InsertUser × String × Nat))
    (hfresh : ∀ e ∈ l, s.users.get e.2.1 = none)
    (hids : (l.map (fun e => e.2.1)).Nodup)
    (hnames : (l.map (fun e => e.1.username)).Nodup)
    (hnew : ∀ e ∈ l, s.getUserByUsername e.1.username = none)
    (sessions : SMap String) (req : SignupReq)
    (userId sessionId roomId memberId : String) (now : Nat)
    (hfu : req.username ≠ "") (hfd : req.displayName ≠ "") (hfp : req.password ≠ "")
    (hconf : req.password = req.confirmPassword) (hlen : ¬req.password.length < 6)
    (hex : (s.getUserByUsername req.username).isSome) :
    (∀ e ∈ l, (foldCreateUsers s l).getUserByUsername e.1.username = some (mkUser e)) ∧
    signupHandler s sessions req userId sessionId roomId memberId now =
      ⟨s, sessions, 409⟩ ∧
    (signupHandler s sessions req userId sessionId roomId memberId
        now).storage.users.values.length = s.users.values.length := by
  have hconflict : signupHandler s sessions req userId sessionId roomId memberId now =
      ⟨s, sessions, 409⟩ := by
    unfold signupHandler
    rw [if_neg (by simp [hfu, hfd, hfp]), if_neg (by simp [hconf]), if_neg hlen]
    rcases Option.isSome_iff_exists.mp hex with ⟨u0, hu0⟩
    rw [hu0]
  refine ⟨?_, hconflict, by rw [hconflict]⟩
  intro e he
  unfold MemStorage.getUserByUsername
  have hentries := foldCreateUsers_entries l s hfresh hids
  have hvals : (foldCreateUsers s l).users.values =
      s.users.values ++ l.map mkUser := by
    unfold SMap.values
    rw [hentries, List.map_append, List.map_map]
    rfl
  rw [hvals, List.find?_append]
  have hnone : s.users.values.find? (fun user => user.username == e.1.username) = none := by
    have := hnew e he
    unfold MemStorage.getUserByUsername at this
    exact this
  rw [hnone, Option.none_or]
  exact find?_created e l he hnames

theorem signup_unique_username_conflict_witness :
    signupHandler sC1 SMap.empty ⟨"current_user", "X", "secret1", "secret1"⟩
      "i9" "sess" "r9" "m9" 10 = ⟨sC1, SMap.empty, 409⟩ :=
  (signup_unique_username_conflict sC1
    [(⟨"alice", "A", "password", none, some true⟩, "i1", 1),
     (⟨"bob", "B", "password", none, some true⟩, "i2", 2)]
    (by decide) (by decide) (by decide) (by decide)
    SMap.empty ⟨"current_user", "X", "secret1", "secret1"⟩ "i9" "sess" "r9" "m9" 10
    (by decide) (by decide) (by decide) (by decide) (by decide) (by decide)).2.1

/-! ## C7 -/

theorem SMap.mem_entries_modify {α : Type} {m : SMap α} {k : String} {f : α → α}
    {p : String × α} (hp : p ∈ (m.modify k f).entries) :
    ∃ q ∈ m.entries, q.1 = p.1 ∧
      ((p = q ∧ (q.1 == k) = false) ∨ ((q.1 == k) = true ∧ p = (q.1, f q.2))) := by
  unfold SMap.modify at hp
  rcases List.mem_map.mp hp with ⟨q, hq, hpq⟩
  by_cases hk : (q.1 == k) = true
  · rw [if_pos hk] at hpq
    exact ⟨q, hq, by rw [← hpq], Or.inr ⟨hk, hpq.symm⟩⟩
  · rw [if_neg hk] at hpq
    exact ⟨q, hq, by rw [← hpq], Or.inl ⟨hpq.symm, Bool.eq_false_iff.mpr hk⟩⟩

theorem SMap.hasKey_of_mem {α : Type} {m : SMap α} {p : String × α}
    (hp : p ∈ m.entries) : m.hasKey p.1 = true :=
  List.any_eq_true.mpr ⟨p, hp, by simp⟩

theorem mem_setDelete {l : List Nat} {c c' : Nat} :
    c ∈ setDelete l c' ↔ c ∈ l ∧ c ≠ c' := by
  simp [setDelete, List.mem_filter]

theorem mem_setAdd {l : List Nat} {c c' : Nat} :
    c ∈ setAdd l c' ↔ c ∈ l ∨ c = c' := by
  unfold setAdd
  by_cases h : l.contains c' = true
  · rw [if_pos h]
    constructor
    · exact Or.inl
    · rintro (h1 | rfl)
      · exact h1
      · exact List.elem_iff.mp h
  · rw [if_neg h]
    simp

/-- The leave-previous-room step of the `join_room` case (with the
source's `currentRoomId && roomClients.has(currentRoomId)` truthiness
guard: a falsy previous room id `""` skips the removal). -/
def joinRc0 (st : WsServer) (conn : Nat) : SMap (List Nat) :=
  match (st.connVars conn).currentRoomId with
  | some prev =>
      if prev != "" && st.roomClients.hasKey prev then
        st.roomClients.modify prev (fun clients => setDelete clients conn)
      else st.roomClients
  | none => st.roomClients

/-- Strengthened registry invariant: a connection sits only in the set of
the room its closure variables record, and no recorded room id is the
falsy empty string. -/
def wsInvT (st : WsServer) : Prop :=
  wsInv st ∧ ∀ c, (st.connVars c).currentRoomId ≠ some ""

/-- Precondition under which the one-room invariant is preserved: every
`join_room` frame carries a nonempty (JS-truthy) room id. -/
def eventOk : ServerEvent → Prop
  | .msg _ (.joinRoom roomId _) => roomId ≠ ""
  | _ => True

/-- The ensure-room-set step of the `join_room` case. -/
def joinRc1 (st : WsServer) (conn : Nat) (roomId : String) : SMap (List Nat) :=
  if (joinRc0 st conn).hasKey roomId then joinRc0 st conn
  else (joinRc0 st conn).set roomId []

theorem wsJoin_state_eq (st : WsServer) (conn : Nat) (roomId userId : String) :
    (wsOnMessage st conn (.joinRoom roomId userId)).1 =
      { roomClients :=
          (joinRc1 st conn roomId).modify roomId (fun clients => setAdd clients conn)
        connVars := fun c =>
          if c = conn then ⟨some roomId, some userId⟩ else st.connVars c } := rfl

theorem joinRc0_entries (st : WsServer) (conn : Nat) :
    ∀ p ∈ (joinRc0 st conn).entries, ∃ q ∈ st.roomClients.entries,
      q.1 = p.1 ∧ ∀ c ∈ p.2, c ∈ q.2 := by
  intro p hp
  unfold joinRc0 at hp
  cases hcur : (st.connVars conn).currentRoomId with
  | none =>
      rw [hcur] at hp
      exact ⟨p, hp, rfl, fun c hc => hc⟩
  | some prev =>
      rw [hcur] at hp
      have hp2 : p ∈ (if prev != "" && st.roomClients.hasKey prev then
          st.roomClients.modify prev (fun clients => setDelete clients conn)
        else st.roomClients).entries := hp
      by_cases hk : (prev != "" && st.roomClients.hasKey prev) = true
      · rw [if_pos hk] at hp2
        rcases SMap.mem_entries_modify hp2 with ⟨q, hq, hq1, hcase⟩
        rcases hcase with ⟨hpq, _⟩ | ⟨_, hpq⟩
        · refine ⟨q, hq, hq1, ?_⟩
          rw [hpq]
          exact fun c hc => hc
        · refine ⟨q, hq, hq1, ?_⟩
          intro c hc
          rw [hpq] at hc
          exact (mem_setDelete.mp hc).1
      · rw [if_neg hk] at hp2
        exact ⟨p, hp2, rfl, fun c hc => hc⟩

theorem joinRc0_no_conn (st : WsServer) (conn : Nat) (hinv : wsInv st)
    (htr : (st.connVars conn).currentRoomId ≠ some "") :
    ∀ p ∈ (joinRc0 st conn).entries, conn ∉ p.2 := by
  intro p hp hc
  unfold joinRc0 at hp
  cases hcur : (st.connVars conn).currentRoomId with
  | none =>
      rw [hcur] at hp
      have hcontra := hinv p hp conn hc
      rw [hcur] at hcontra
      cases hcontra
  | some prev =>
      rw [hcur] at hp
      have hprev : prev ≠ "" := by
        intro h
        exact htr (by rw [hcur, h])
      have hbprev : (prev != "") = true := by simp [hprev]
      have hp2 : p ∈ (if prev != "" && st.roomClients.hasKey prev then
          st.roomClients.modify prev (fun clients => setDelete clients conn)
        else st.roomClients).entries := hp
      by_cases hk : st.roomClients.hasKey prev = true
      · rw [if_pos (by rw [hbprev, hk]; rfl)] at hp2
        rcases SMap.mem_entries_modify hp2 with ⟨q, hq, _, hcase⟩
        rcases hcase with ⟨hpq, hkf⟩ | ⟨_, hpq⟩
        · rw [hpq] at hc
          have hcontra := hinv q hq conn hc
          rw [hcur] at hcontra
          injection hcontra with hpe
          have hkne : q.1 ≠ prev := by simpa using hkf
          exact hkne hpe.symm
        · rw [hpq] at hc
          exact (mem_setDelete.mp hc).2 rfl
      · rw [if_neg (by simp [hk])] at hp2
        have hcontra := hinv p hp2 conn hc
        rw [hcur] at hcontra
        injection hcontra with hpe
        apply hk
        rw [hpe]
        exact SMap.hasKey_of_mem hp2

theorem joinRc1_entries (st : WsServer) (conn : Nat) (roomId : String) :
    ∀ p ∈ (joinRc1 st conn roomId).entries,
      p ∈ (joinRc0 st conn).entries ∨ p = (roomId, []) := by
  intro p hp
  unfold joinRc1 at hp
  by_cases hk : (joinRc0 st conn).hasKey roomId = true
  · rw [if_pos hk] at hp
    exact Or.inl hp
  · rw [if_neg hk] at hp
    have hfresh : (joinRc0 st conn).get roomId = none :=
      (SMap.get_eq_none_iff _ _).mpr
        ((SMap.hasKey_eq_false_iff _ _).mp (Bool.eq_false_iff.mpr hk))
    rw [SMap.set_of_fresh _ hfresh] at hp
    rcases List.mem_append.mp hp with h1 | h1
    · exact Or.inl h1
    · right; simpa using h1

theorem wsInv_join (st : WsServer) (conn : Nat) (roomId userId : String)
    (hinvT : wsInvT st) (hroom : roomId ≠ "") :
    wsInvT (wsOnMessage st conn (.joinRoom roomId userId)).1 := by
  have hinv := hinvT.1
  constructor
  case right =>
    intro c
    rw [wsJoin_state_eq]
    show (if c = conn then ConnVars.mk (some roomId) (some userId)
          else st.connVars c).currentRoomId ≠ some ""
    by_cases hcc : c = conn
    · rw [if_pos hcc]
      intro h
      injection h with h2
      exact hroom h2
    · rw [if_neg hcc]
      exact hinvT.2 c
  rw [wsJoin_state_eq]
  intro p hp c hc
  rcases SMap.mem_entries_modify hp with ⟨q1, hq1, hq1p, hcase⟩
  rcases hcase with ⟨hpq, hkf⟩ | ⟨hkt, hpq⟩
  · rw [hpq] at hc
    rcases joinRc1_entries st conn roomId q1 hq1 with h0 | hR
    · have hnc := joinRc0_no_conn st conn hinv (hinvT.2 conn) q1 h0
      have hcne : c ≠ conn := fun hcc => hnc (hcc ▸ hc)
      rcases joinRc0_entries st conn q1 h0 with ⟨q0, hq0, hq01, hsub⟩
      have hvc := hinv q0 hq0 c (hsub c hc)
      show (if c = conn then ConnVars.mk (some roomId) (some userId)
            else st.connVars c).currentRoomId = some p.1
      rw [if_neg hcne, hvc, hq01, hq1p, hpq]
    · exfalso
      rw [hR] at hkf
      simp at hkf
  · have hq1R : q1.1 = roomId := eq_of_beq hkt
    have hp1 : p.1 = roomId := by rw [← hq1p]; exact hq1R
    rw [hpq] at hc
    rcases mem_setAdd.mp hc with hcq | hcconn
    · by_cases hcc : c = conn
      · show (if c = conn then ConnVars.mk (some roomId) (some userId)
              else st.connVars c).currentRoomId = some p.1
        rw [if_pos hcc, hp1]
      · rcases joinRc1_entries st conn roomId q1 hq1 with h0 | hR
        · rcases joinRc0_entries st conn q1 h0 with ⟨q0, hq0, hq01, hsub⟩
          have hvc := hinv q0 hq0 c (hsub c hcq)
          show (if c = conn then ConnVars.mk (some roomId) (some userId)
                else st.connVars c).currentRoomId = some p.1
          rw [if_neg hcc, hvc, hq01, hq1p]
        · exfalso
          rw [hR] at hcq
          cases hcq
    · show (if c = conn then ConnVars.mk (some roomId) (some userId)
            else st.connVars c).currentRoomId = some p.1
      rw [if_pos hcconn, hp1]

theorem wsInv_close (st : WsServer) (conn : Nat) (hinvT : wsInvT st) :
    wsInvT (wsOnClose st conn).1 := by
  have hinv := hinvT.1
  cases hcur : (st.connVars conn).currentRoomId with
  | none =>
      have hstate : (wsOnClose st conn).1 = st := by simp [wsOnClose, hcur]
      rw [hstate]
      exact hinvT
  | some roomId =>
      by_cases hk : (roomId != "" && st.roomClients.hasKey roomId) = true
      · have hstate : (wsOnClose st conn).1 =
            { st with roomClients :=
                st.roomClients.modify roomId (fun clients => setDelete clients conn) } := by
          cases hvu : (st.connVars conn).currentUserId <;>
            simp [wsOnClose, hcur, hk, hvu]
        rw [hstate]
        refine ⟨?_, fun c => hinvT.2 c⟩
        intro p hp c hc
        rcases SMap.mem_entries_modify hp with ⟨q, hq, hq1, hcase⟩
        rcases hcase with ⟨hpq, _⟩ | ⟨_, hpq⟩
        · rw [hpq] at hc
          have hvc := hinv q hq c hc
          show (st.connVars c).currentRoomId = some p.1
          rw [hvc, hq1]
        · rw [hpq] at hc
          have hvc := hinv q hq c (mem_setDelete.mp hc).1
          show (st.connVars c).currentRoomId = some p.1
          rw [hvc, hq1]
      · have hstate : (wsOnClose st conn).1 = st := by simp [wsOnClose, hcur, hk]
        rw [hstate]
        exact hinvT

theorem wsInv_step (st : WsServer) (e : ServerEvent) (hok : eventOk e)
    (hinvT : wsInvT st) : wsInvT (wsStep st e) := by
  cases e with
  | close conn => exact wsInv_close st conn hinvT
  | msg conn frame =>
      cases frame with
      | joinRoom roomId userId => exact wsInv_join st conn roomId userId hinvT hok
      | newMessage payload =>
          have hstate : (wsOnMessage st conn (.newMessage payload)).1 = st := by
            cases hcur : (st.connVars conn).currentRoomId with
            | none => simp [wsOnMessage, hcur]
            | some roomId =>
                by_cases hb : (roomId != "") = true
                · simp [wsOnMessage, hcur, hb]
                · simp [wsOnMessage, hcur, hb]
          show wsInvT (wsOnMessage st conn (.newMessage payload)).1
          rw [hstate]
          exact hinvT
      | typingStatus b =>
          have hstate : (wsOnMessage st conn (.typingStatus b)).1 = st := by
            cases hcur : (st.connVars conn).currentRoomId with
            | none => simp [wsOnMessage, hcur]
            | some roomId =>
                by_cases hb : (roomId != "") = true
                · simp [wsOnMessage, hcur, hb]
                · simp [wsOnMessage, hcur, hb]
          show wsInvT (wsOnMessage st conn (.typingStatus b)).1
          rw [hstate]
          exact hinvT

theorem wsInv_runWs (events : List ServerEvent) (hok : ∀ e ∈ events, eventOk e) :
    wsInvT (runWs events) := by
  have core : ∀ (es : List ServerEvent) (st : WsServer), (∀ e ∈ es, eventOk e) →
      wsInvT st → wsInvT (es.foldl wsStep st) := by
    intro es
    induction es with
    | nil => intro st _ h; exact h
    | cons e t ih =>
        intro st hok2 h
        exact ih _ (fun e2 he2 => hok2 e2 (List.mem_cons_of_mem e he2))
          (wsInv_step st e (hok2 e (List.mem_cons_self e t)) h)
  refine core events initWs hok ⟨?_, ?_⟩
  · intro p hp
    exact absurd hp (List.not_mem_nil p)
  · intro c h
    exact Option.noConfusion h

theorem wsBroadcast_not_self (st : WsServer) (isOpen : Nat → Bool) (roomId : String)
    (ev : Event) (x : Nat) :
    ∀ d ∈ wsBroadcast st isOpen roomId ev (some x), d.1 ≠ x := by
  intro d hd
  unfold wsBroadcast at hd
  cases h : st.roomClients.get roomId with
  | none =>
      rw [h] at hd
      cases hd
  | some clients =>
      rw [h] at hd
      rcases List.mem_map.mp hd with ⟨c, hc, hdc⟩
      have hcf := (List.mem_filter.mp hc).2
      simp only [Bool.and_eq_true, decide_eq_true_eq] at hcf
      subst hdc
      intro hcx
      have hcx2 : c = x := hcx
      exact hcf.1 (by rw [hcx2])

theorem wsBroadcast_mem (st : WsServer) (isOpen : Nat → Bool) (roomId : String)
    (ev : Event) (x c : Nat) (clients : List Nat)
    (hget : st.roomClients.get roomId = some clients)
    (hc : c ∈ clients) (hne : c ≠ x) (hopen : isOpen c = true) :
    (c, ev) ∈ wsBroadcast st isOpen roomId ev (some x) := by
  unfold wsBroadcast
  rw [hget]
  refine List.mem_map.mpr ⟨c, ?_, rfl⟩
  refine List.mem_filter.mpr ⟨hc, ?_⟩
  simp [hne, hopen]

/-- C7 as stated is false on the code: a socket that sends `join_room`
with the falsy room id `""` and then joins room `"R"` is left in BOTH
room sets — the leave-previous-room step is guarded by the JS truthiness
test `if (currentRoomId && ...)`, which fails for `""`, so the removal is
skipped.  The reachable state below has connection 0 in the sets of the
two distinct rooms `""` and `"R"`. -/
theorem join_empty_room_double_membership_cex :
    ("", [0]) ∈ (runWs [.msg 0 (.joinRoom "" "u"),
        .msg 0 (.joinRoom "R" "u")]).roomClients.entries ∧
    ("R", [0]) ∈ (runWs [.msg 0 (.joinRoom "" "u"),
        .msg 0 (.joinRoom "R" "u")]).roomClients.entries ∧
    (0 : Nat) ∈ [0] ∧ ("" : String) ≠ "R" := by
  refine ⟨by decide, by decide, by decide, by decide⟩

/-- C7 (amended): in every registry state reachable from startup through
events whose `join_room` frames all carry a nonempty (JS-truthy) room id,
a connection sits in the set of at most one room — `join_room` with a
nonempty target removes the connection from its previous (truthy) room
before adding it to the new one; a join through the falsy room id `""`
skips the removal and breaks the invariant.  The `user_joined` event a
join emits is broadcast excluding the joining connection itself —
delivered to every other open member of the new room and never back to
the joiner. -/
theorem connection_in_at_most_one_room :
    (∀ events, (∀ e ∈ events, eventOk e) →
      ∀ p ∈ (runWs events).roomClients.entries,
        ∀ q ∈ (runWs events).roomClients.entries,
          ∀ c, c ∈ p.2 → c ∈ q.2 → p.1 = q.1) ∧
    (∀ st conn roomId userId, wsInvT st → roomId ≠ "" →
      (wsOnMessage st conn (.joinRoom roomId userId)).2 =
        [⟨roomId, .userJoined userId roomId, some conn⟩] ∧
      (∀ p ∈ (wsOnMessage st conn (.joinRoom roomId userId)).1.roomClients.entries,
        conn ∈ p.2 → p.1 = roomId) ∧
      (∀ isOpen ev d,
        d ∈ wsBroadcast (wsOnMessage st conn (.joinRoom roomId userId)).1 isOpen
          roomId ev (some conn) → d.1 ≠ conn) ∧
      (∀ isOpen c clients,
        (wsOnMessage st conn (.joinRoom roomId userId)).1.roomClients.get roomId =
          some clients → c ∈ clients → c ≠ conn → isOpen c = true →
        (c, Event.userJoined userId roomId) ∈
          wsBroadcast (wsOnMessage st conn (.joinRoom roomId userId)).1 isOpen roomId
            (.userJoined userId roomId) (some conn))) := by
  constructor
  · intro events hok p hp q hq c hcp hcq
    have hinv := (wsInv_runWs events hok).1
    have h1 := hinv p hp c hcp
    have h2 := hinv q hq c hcq
    rw [h1] at h2
    injection h2
  · intro st conn roomId userId hinvT hroom
    refine ⟨rfl, ?_, ?_, ?_⟩
    · intro p hp hcp
      have hinv2 := (wsInv_join st conn roomId userId hinvT hroom).1
      have hvc := hinv2 p hp conn hcp
      rw [wsJoin_state_eq] at hvc
      simp only [if_pos rfl] at hvc
      injection hvc with hvc2
      exact hvc2.symm
    · intro isOpen ev d hd
      exact wsBroadcast_not_self _ isOpen roomId ev conn d hd
    · intro isOpen c clients hget hc hne hopen
      exact wsBroadcast_mem _ isOpen roomId _ conn c clients hget hc hne hopen

theorem wsStA_invT : wsInvT wsStA := by
  refine ⟨by unfold wsInv; decide, ?_⟩
  intro c
  show ((if c = 0 then ConnVars.mk (some "R") (some "uA")
        else if c = 1 then ConnVars.mk (some "R") (some "uB")
        else if c = 2 then ConnVars.mk (some "R") (some "uC")
        else ConnVars.mk none none)).currentRoomId ≠ some ""
  split_ifs <;> simp

theorem connection_in_at_most_one_room_witness :
    (wsOnMessage wsStA 3 (.joinRoom "R2" "uD")).2 =
      [⟨"R2", .userJoined "uD" "R2", some 3⟩] :=
  (connection_in_at_most_one_room.2 wsStA 3 "R2" "uD" wsStA_invT (by decide)).1
